import Mathlib

/-!
Verification development for the AgentMarKB knowledge-base synchronization
engine (Chrome extension `background/service-worker.js` and
`utils/deduplication.js`).

Strings are modelled as `List Char` (`Str`), so that every operation the
JavaScript source performs on strings (regex replaces, trims, sorts,
substring scans) becomes an executable, inductively analysable list
function.  JavaScript `undefined` is modelled with `Option`; JavaScript
objects used as ordered string-keyed maps (the `favorite_authors` and
`topic_index` objects) are modelled as association lists in assignment
order; the observable enumeration order of a JS object additionally
hoists integer-like (array-index) keys to the front in ascending numeric
order, which `objEnum` models and which is applied wherever the source
enumerates an object's keys (`Object.keys` in `updateTopicIndex` — every
other object access in the verified code is a single-key lookup, which
is order independent).  The WHATWG `URL` class is modelled by `parseUrl`/`href` for the
`scheme://host/path?query#fragment` shape used by the extension (no
userinfo/port/percent-decoding, which none of the verified properties
touch).  `Date` parsing and the current date, which are environment
dependent, enter as explicit oracle parameters.
-/

namespace AgentMarKB

abbrev Str := List Char

/-- Model of JavaScript `String.prototype.toLowerCase` on an ASCII code
unit: uppercase letters are shifted down by 32, anything else unchanged. -/
def toLowerChar (c : Char) : Char :=
  if 'A' ≤ c ∧ c ≤ 'Z' then Char.ofNat (c.toNat + 32) else c

def toLowerStr (s : Str) : Str := s.map toLowerChar

/-- Characters removed by JavaScript `String.prototype.trim` (ASCII part). -/
def isJsWs (c : Char) : Bool :=
  c = ' ' ∨ c = '\t' ∨ c = '\n' ∨ c = '\r' ∨ c = '\x0b' ∨ c = '\x0c'

/-- Model of `String.prototype.trim`. -/
def trimWs (s : Str) : Str :=
  ((s.dropWhile isJsWs).reverse.dropWhile isJsWs).reverse

/-- Model of `.replace(/\/+$/, '')`: remove every trailing slash. -/
def dropTrailingSlashes (s : Str) : Str :=
  (s.reverse.dropWhile (fun c => c = '/')).reverse

/-- Does the first string start the second?  (The `String.prototype`
`startsWith` test used by the scanning functions below; defined by
recursion on the pattern so that it evaluates even on a symbolic tail.) -/
def isPrefixB : Str → Str → Bool
  | [], _ => true
  | _ :: _, [] => false
  | c :: p, d :: s => if c = d then isPrefixB p s else false

/-- Scanning worker for `replaceFirst`: replace the leftmost occurrence of
`pat` (assumed nonempty) by `rep`. -/
def replaceFirstGo (pat rep : Str) : Str → Str
  | [] => []
  | c :: t =>
    if isPrefixB pat (c :: t) then rep ++ (c :: t).drop pat.length
    else c :: replaceFirstGo pat rep t

/-- Model of JavaScript `String.prototype.replace` with a plain-string
pattern: replaces only the first occurrence.  An empty pattern inserts the
replacement in front, as in JS. -/
def replaceFirst (s pat rep : Str) : Str :=
  if pat = [] then rep ++ s else replaceFirstGo pat rep s

/-- Scanning worker for a regex alternation of literal branches: at each
position try the branches in order; replace the leftmost match by `rep`. -/
def replaceFirstAnyGo (pats : List Str) (rep : Str) : Str → Str
  | [] => []
  | c :: t =>
    match pats.find? (fun p => isPrefixB p (c :: t)) with
    | some p => rep ++ (c :: t).drop p.length
    | none => c :: replaceFirstAnyGo pats rep t

def replaceFirstAny (s : Str) (pats : List Str) (rep : Str) : Str :=
  replaceFirstAnyGo pats rep s

/-- Occurrence test: does `pat` occur as a contiguous substring of `s`?
(`pat` nonempty in all uses.) -/
def occursB (pat : Str) : Str → Bool
  | [] => isPrefixB pat []
  | c :: t => isPrefixB pat (c :: t) || occursB pat t

/-- Model of JavaScript `String.prototype.endsWith`. -/
def endsWithB (s suffix : Str) : Bool :=
  isPrefixB suffix.reverse s.reverse

/-- `true` iff `s` has no two adjacent `'/'` characters. -/
def noDoubleSlash : Str → Bool
  | [] => true
  | [_] => true
  | a :: b :: t => !(a = '/' && b = '/') && noDoubleSlash (b :: t)

/-! ## The WHATWG `URL` model -/

/-- The parsed form `new URL(s)` produces for the
`scheme://host/path?query#fragment` URLs the extension handles.  `path`
always begins with `'/'` (the WHATWG serializer guarantees this for
special schemes); `query` is the decomposed search-parameter list;
`fragment = none` means no `#` was present. -/
structure JsUrl where
  scheme : Str
  host : Str
  path : Str
  query : List (Str × Str)
  fragment : Option Str
deriving DecidableEq

def joinAmp : List Str → Str
  | [] => []
  | [x] => x
  | x :: y :: t => x ++ '&' :: joinAmp (y :: t)

/-- Serialization of the search-parameter list, as `URLSearchParams`
re-serializes after a mutation: `k=v` pairs joined by `&`, with a leading
`?` only when nonempty. -/
def renderQuery : List (Str × Str) → Str
  | [] => []
  | q => '?' :: joinAmp (q.map (fun p => p.1 ++ '=' :: p.2))

def renderHash : Option Str → Str
  | none => []
  | some f => '#' :: f

/-- Model of the `href` getter. -/
def href (u : JsUrl) : Str :=
  u.scheme ++ ':' :: '/' :: '/' :: (u.host ++ u.path ++ renderQuery u.query ++ renderHash u.fragment)

def isSchemeChar (c : Char) : Bool :=
  ('a' ≤ c ∧ c ≤ 'z') ∨ ('A' ≤ c ∧ c ≤ 'Z') ∨ ('0' ≤ c ∧ c ≤ '9') ∨ c = '+' ∨ c = '-' ∨ c = '.'

def isAuthorityEnd (c : Char) : Bool :=
  c = '/' ∨ c = '?' ∨ c = '#'

/-- One `k=v` search parameter from its raw text. -/
def parseQueryPair (seg : Str) : Str × Str :=
  (seg.takeWhile (fun c => c ≠ '='), (seg.dropWhile (fun c => c ≠ '=')).drop 1)

/-- `URLSearchParams` parsing: split on `&`, drop empty segments, split
each segment at the first `=`. -/
def parseQuery (raw : Str) : List (Str × Str) :=
  ((raw.splitOn '&').filter (fun seg => seg ≠ [])).map parseQueryPair

/-- Model of `new URL(s)` for `scheme://authority…` URLs: `none` models
the constructor throwing.  Scheme and host are lowercased as the WHATWG
parser does. -/
def parseUrl (s : Str) : Option JsUrl :=
  let scheme := s.takeWhile (fun c => c ≠ ':')
  match s.dropWhile (fun c => c ≠ ':') with
  | ':' :: '/' :: '/' :: r =>
    if scheme = [] ∨ ¬ scheme.all isSchemeChar then none
    else
      let auth := r.takeWhile (fun c => ¬ isAuthorityEnd c)
      if auth = [] then none
      else
        let r2 := r.dropWhile (fun c => ¬ isAuthorityEnd c)
        let path := match r2 with
          | '/' :: _ => r2.takeWhile (fun c => c ≠ '?' ∧ c ≠ '#')
          | _ => ['/']
        let r3 := match r2 with
          | '/' :: _ => r2.dropWhile (fun c => c ≠ '?' ∧ c ≠ '#')
          | _ => r2
        let queryRaw := match r3 with
          | '?' :: t => t.takeWhile (fun c => c ≠ '#')
          | _ => []
        let fragPart := match r3 with
          | '?' :: t => t.dropWhile (fun c => c ≠ '#')
          | _ => r3
        let fragment := match fragPart with
          | '#' :: f => some f
          | _ => none
        some { scheme := toLowerStr scheme, host := toLowerStr auth, path := path,
               query := parseQuery queryRaw, fragment := fragment }
  | _ => none

/-! ## `service-worker.js` URL/handle normalization -/

/-- The tracking parameters stripped by the service worker (file
`background/service-worker.js`, `normalizeUrl`). -/
def swTrackingParams : List Str :=
  [(r"utm_source").toList, (r"utm_medium").toList, (r"utm_campaign").toList,
   (r"utm_term").toList, (r"utm_content").toList, (r"ref").toList,
   (r"source").toList, (r"fbclid").toList, (r"gclid").toList]

def filterTracking (params : List Str) (q : List (Str × Str)) : List (Str × Str) :=
  q.filter (fun p => ¬ p.1 ∈ params)

def xcomPat : Str := (r"//x.com/").toList
def wwwXcomPat : Str := (r"//www.x.com/").toList
def twitterRep : Str := (r"//twitter.com/").toList

/-- The service worker's `normalizeUrl` after a successful `new URL`
parse: delete tracking parameters, take the href, strip trailing slashes,
canonicalize `x.com` to `twitter.com`, lowercase. -/
def swNormParts (u : JsUrl) : Str :=
  let u2 : JsUrl := { u with query := filterTracking swTrackingParams u.query }
  let n1 := dropTrailingSlashes (href u2)
  let n2 := replaceFirst n1 xcomPat twitterRep
  let n3 := replaceFirst n2 wwwXcomPat twitterRep
  toLowerStr n3

/-- `normalizeUrl` from `background/service-worker.js`; the `catch` branch
(unparseable URL) lowercases the raw string. -/
def normalizeUrl (url : Str) : Str :=
  match parseUrl url with
  | some u => swNormParts u
  | none => toLowerStr url

/-- `handle.replace(/^@/, '')`: drop one leading `@` if present. -/
def stripLeadingAt : Str → Str
  | [] => []
  | c :: t => if c = '@' then t else c :: t

/-- `normalizeHandle` from `background/service-worker.js`:
`handle.replace(/^@/, '').toLowerCase().trim()`. -/
def normalizeHandle (handle : Str) : Str :=
  trimWs (toLowerStr (stripLeadingAt handle))

end AgentMarKB

namespace AgentMarKB.Dedup

/-- The longer tracking-parameter list of `utils/deduplication.js`. -/
def dedupTrackingParams : List Str :=
  [(r"utm_source").toList, (r"utm_medium").toList, (r"utm_campaign").toList,
   (r"utm_term").toList, (r"utm_content").toList, (r"ref").toList,
   (r"source").toList, (r"fbclid").toList, (r"gclid").toList,
   (r"mc_cid").toList, (r"mc_eid").toList, (r"_hsenc").toList,
   (r"_hsmi").toList, (r"trk").toList, (r"trkInfo").toList]

/-- The literal branches of `/\/\/(www\.)?(twitter\.com|x\.com)\//`. -/
def xTwitterPats : List Str :=
  [(r"//www.twitter.com/").toList, (r"//www.x.com/").toList,
   (r"//twitter.com/").toList, (r"//x.com/").toList]

def xcomRep : Str := (r"//x.com/").toList

/-- The literal branches of `/\/\/(www\.)?linkedin\.com\//`. -/
def linkedinPats : List Str :=
  [(r"//www.linkedin.com/").toList, (r"//linkedin.com/").toList]

def linkedinRep : Str := (r"//www.linkedin.com/").toList

/-- The `parsed.hash` string: `'#' + fragment` when the fragment is
nonempty, `''` otherwise (the WHATWG hash getter). -/
def hashOf (frag : Option Str) : Str :=
  match frag with
  | none => []
  | some [] => []
  | some f => '#' :: f

/-- `normalizeUrl` from `utils/deduplication.js` after a successful parse:
delete tracking parameters, strip trailing slashes, restore the root
slash when the string ends with the hostname, canonicalize x/twitter and
linkedin domains, drop a non-meaningful fragment, lowercase. -/
def dedupNormParts (u : JsUrl) : Str :=
  let u2 : JsUrl := { u with query := filterTracking dedupTrackingParams u.query }
  let n1 := dropTrailingSlashes (href u2)
  let n2 := if endsWithB n1 u.host then n1 ++ ['/'] else n1
  let n3 := replaceFirstAny n2 xTwitterPats xcomRep
  let n4 := replaceFirstAny n3 linkedinPats linkedinRep
  let h := hashOf u.fragment
  let n5 :=
    if h ≠ [] ∧ ¬ '=' ∈ h ∧ ¬ isPrefixB ('#' :: '!' :: []) h then replaceFirst n4 h []
    else n4
  toLowerStr n5

/-- `normalizeUrl` from `utils/deduplication.js`: empty input gives `''`;
the `catch` branch lowercases and strips trailing slashes. -/
def normalizeUrl (url : Str) : Str :=
  if url = [] then []
  else
    match parseUrl url with
    | some u => dedupNormParts u
    | none => dropTrailingSlashes (toLowerStr url)

/-- `normalizeHandle` from `utils/deduplication.js`. -/
def normalizeHandle (handle : Str) : Str :=
  if handle = [] then []
  else trimWs (toLowerStr (stripLeadingAt handle))

end AgentMarKB.Dedup

namespace AgentMarKB

/-! ## The Index Document model

JS objects used as ordered maps become association lists; a JS field that
may be `undefined` becomes an `Option`.  The model keeps every field of a
Content/Author record the engine reads or writes. -/

/-- One saved item.  `url` is the identity field; `date_saved` is stamped
by `addContent`; the remaining fields are inert payload carried along. -/
structure Content where
  url : Str
  date_saved : Option Str := none
  topics : Option (List Str) := none
  title : Option Str := none
  date_published : Option Str := none
  date : Option Str := none
deriving DecidableEq

/-- An author record.  Identity fields vary per platform (`handle` for x,
`profile_url` for linkedin, `url` for substack, `name`/`source` for
generic_web); `author` is the extra substack display-name field. -/
structure Author where
  handle : Option Str := none
  profile_url : Option Str := none
  url : Option Str := none
  name : Option Str := none
  source : Option Str := none
  author : Option Str := none
  topics : Option (List Str) := none
  saved_posts : Option (List Content) := none
  saved_articles : Option (List Content) := none
deriving DecidableEq

abbrev TopicIndex := List (Str × List Str)

abbrev FavAuthors := List (Str × List Author)

/-- The Index Document (`curated_sources.yaml` content). -/
structure KB where
  favorite_authors : Option FavAuthors := none
  topic_index : Option TopicIndex := none
deriving DecidableEq

/-- Lookup of a string key in a JS object modelled as an assoc list. -/
def lookupKey {β : Type} : List (Str × β) → Str → Option β
  | [], _ => none
  | (k2, v) :: t, k => if k2 = k then some v else lookupKey t k

/-- JS `obj[k] = v`: overwrite in place if the key exists, else record the
new assignment at the end.  The list tracks assignment order; a JS
object's enumeration order additionally hoists array-index keys to the
front in numeric order, modelled by `objEnum` and applied at the one
place the source observes key order (`Object.keys` in
`updateTopicIndex`). -/
def setKey {β : Type} : List (Str × β) → Str → β → List (Str × β)
  | [], k, v => [(k, v)]
  | (k2, v2) :: t, k, v => if k2 = k then (k2, v) :: t else (k2, v2) :: setKey t k v

def hasKey {β : Type} (l : List (Str × β)) (k : Str) : Bool :=
  (lookupKey l k).isSome

def strX : Str := ('x').toString.toList

def strLinkedin : Str := (r"linkedin").toList

def strSubstack : Str := (r"substack").toList

def strGeneric : Str := (r"generic_web").toList

/-- What `getAuthorIdentifier` returns: a handle/url string, the
`{name, source}` pair, or `null` for unknown platforms. -/
inductive Identifier where
  | str : Option Str → Identifier
  | pair : Option Str → Option Str → Identifier
  | null : Identifier
deriving DecidableEq

/-- `getAuthorIdentifier(platform, authorData)` from the service worker. -/
def getAuthorIdentifier (platform : Str) (a : Author) : Identifier :=
  if platform = strX then Identifier.str a.handle
  else if platform = strLinkedin then Identifier.str a.profile_url
  else if platform = strSubstack then Identifier.str a.url
  else if platform = strGeneric then Identifier.pair a.name a.source
  else Identifier.null

/-- The per-platform identity comparison inside `findAuthor`.  A JS
comparison between two `undefined` fields is `true` (`Option` equality);
a comparison whose author-side field is `undefined` against a string is a
non-match. -/
def matchesAuthor (platform : Str) (idf : Identifier) (a : Author) : Bool :=
  if platform = strX then
    match a.handle, idf with
    | some h, Identifier.str (some s) => normalizeHandle h = normalizeHandle s
    | _, _ => false
  else if platform = strLinkedin then
    match a.profile_url, idf with
    | some pu, Identifier.str (some s) => normalizeUrl pu = normalizeUrl s
    | _, _ => false
  else if platform = strSubstack then
    match a.url, idf with
    | some u, Identifier.str (some s) => normalizeUrl u = normalizeUrl s
    | _, _ => false
  else if platform = strGeneric then
    match idf with
    | Identifier.pair n s =>
      a.name.map toLowerStr = n.map toLowerStr ∧ a.source.map toLowerStr = s.map toLowerStr
    | _ => false
  else false

/-- The author list stored for a platform: `kb.favorite_authors?.[platform] || []`. -/
def authorsOf (kb : KB) (platform : Str) : List Author :=
  (lookupKey (kb.favorite_authors.getD []) platform).getD []

/-- `findAuthor(kb, platform, identifier)` from the service worker. -/
def findAuthor (kb : KB) (platform : Str) (idf : Identifier) : Option Author :=
  (authorsOf kb platform).find? (matchesAuthor platform idf)

/-- JS `new Set([...a, ...b])` materialized with `Array.from`: the
concatenation with later duplicates dropped, keeping first-occurrence
order. -/
def jsSetUnion (a b : List Str) : List Str :=
  (a ++ b).foldl (fun acc x => if x ∈ acc then acc else acc ++ [x]) []

/-- The topic merge `addOrUpdateAuthor` performs on an existing author:
skip when the incoming record carries no `topics` field. -/
def mergeTopics (existing incoming : Author) : Author :=
  match incoming.topics with
  | none => existing
  | some ts => { existing with topics := some (jsSetUnion (existing.topics.getD []) ts) }

/-- Replace the first matching author by its merged form, returning the
new list and the merged author when one matched (`findAuthor` returning a
live reference which `addOrUpdateAuthor` then mutates in place). -/
def upsertInList (platform : Str) (idf : Identifier) (incoming : Author) :
    List Author → List Author × Option Author
  | [] => ([], none)
  | a :: t =>
    if matchesAuthor platform idf a then (mergeTopics a incoming :: t, some (mergeTopics a incoming))
    else
      let r := upsertInList platform idf incoming t
      (a :: r.1, r.2)

structure UpsertResult where
  kb : KB
  author : Author
  isNew : Bool
deriving DecidableEq

/-- The `if (!kb.favorite_authors[platform]) kb.favorite_authors[platform] = []`
structure-ensuring step: append the platform key when absent. -/
def ensurePlatform (fa : FavAuthors) (platform : Str) : FavAuthors :=
  if hasKey fa platform then fa else fa ++ [(platform, [])]

/-- `addOrUpdateAuthor(kb, platform, authorData)`: ensure the platform
key exists, look for an author with the same normalized identity, merge
topics into it if found, else push the incoming record. -/
def addOrUpdateAuthor (kb : KB) (platform : Str) (authorData : Author) : UpsertResult :=
  let fa1 := ensurePlatform (kb.favorite_authors.getD []) platform
  let authors := (lookupKey fa1 platform).getD []
  let r := upsertInList platform (getAuthorIdentifier platform authorData) authorData authors
  match r.2 with
  | some merged =>
    { kb := { kb with favorite_authors := some (setKey fa1 platform r.1) },
      author := merged, isNew := false }
  | none =>
    { kb := { kb with favorite_authors := some (setKey fa1 platform (authors ++ [authorData])) },
      author := authorData, isNew := true }

/-- The content list the platform stores (`saved_posts` for x/linkedin,
`saved_articles` otherwise), with `|| []` defaulting. -/
def savedContentOf (a : Author) (platform : Str) : List Content :=
  (if platform = strX ∨ platform = strLinkedin then a.saved_posts else a.saved_articles).getD []

/-- `contentExists(author, url, platform)`. -/
def contentExists (a : Author) (url : Str) (platform : Str) : Bool :=
  let normalizedUrl := normalizeUrl url
  (savedContentOf a platform).any (fun item => normalizeUrl item.url = normalizedUrl)

structure AddResult where
  success : Bool
  reason : Option Str := none
deriving DecidableEq

/-- The author with its platform content list materialized to `[]` when
absent (`if (!author[contentKey]) author[contentKey] = []`). -/
def ensureContentList (a : Author) (platform : Str) : Author :=
  if platform = strX ∨ platform = strLinkedin then
    match a.saved_posts with
    | none => { a with saved_posts := some [] }
    | some _ => a
  else
    match a.saved_articles with
    | none => { a with saved_articles := some [] }
    | some _ => a

/-- Append a content record to the right list of the author. -/
def pushContent (a : Author) (platform : Str) (c : Content) : Author :=
  if platform = strX ∨ platform = strLinkedin then
    { a with saved_posts := some (a.saved_posts.getD [] ++ [c]) }
  else
    { a with saved_articles := some (a.saved_articles.getD [] ++ [c]) }

/-- `addContent(author, platform, contentData)`; `today` is the
`new Date().toISOString().split('T')[0]` oracle. -/
def addContent (a : Author) (platform : Str) (c : Content) (today : Str) : Author × AddResult :=
  let a1 := ensureContentList a platform
  if contentExists a1 c.url platform then
    (a1, { success := false, reason := some ((r"duplicate").toList) })
  else
    (pushContent a1 platform { c with date_saved := some today }, { success := true })

/-! ## Topic index -/

def sortStrs (l : List Str) : List Str :=
  List.insertionSort (fun a b : Str => a ≤ b) l

def keyLe {β : Type} (p q : Str × β) : Prop := p.1 ≤ q.1

instance {β : Type} : DecidableRel (keyLe (β := β)) :=
  fun p q => inferInstanceAs (Decidable (p.1 ≤ q.1))

instance {β : Type} : IsTotal (Str × β) keyLe := ⟨fun a b => le_total a.1 b.1⟩

instance {β : Type} : IsTrans (Str × β) keyLe := ⟨fun _ _ _ h1 h2 => le_trans h1 h2⟩

/-- The assignments performed by the `Object.keys(...).sort().forEach(...)`
rebuild loop: the entries reassigned in lexicographically sorted key
order.  This is the rebuilt object's assignment order only; the object
itself enumerates with array-index keys hoisted, so `updateTopicIndex`
wraps this in `objEnum`. -/
def sortPairs (ti : TopicIndex) : TopicIndex :=
  List.insertionSort keyLe ti

/-- ASCII decimal digit. -/
def isDigitChar (c : Char) : Bool := '0' ≤ c ∧ c ≤ '9'

/-- Numeric value of a decimal digit string. -/
def digitsToNat (s : Str) : Nat := s.foldl (fun n c => n * 10 + (c.toNat - 48)) 0

/-- ECMAScript array-index property key: a canonical decimal numeral (no
sign, no leading zero except `"0"` itself) whose numeric value is below
2^32 - 1.  A JS object enumerates such keys before all other string keys,
in ascending numeric order. -/
def isArrayIndex (s : Str) : Bool :=
  s ≠ [] ∧ s.all isDigitChar ∧ (s = [('0' : Char)] ∨ s.head? ≠ some '0') ∧
    digitsToNat s < 4294967295

def numKeyLe {β : Type} (p q : Str × β) : Prop := digitsToNat p.1 ≤ digitsToNat q.1

instance {β : Type} : DecidableRel (numKeyLe (β := β)) :=
  fun p q => inferInstanceAs (Decidable (digitsToNat p.1 ≤ digitsToNat q.1))

instance {β : Type} : IsTotal (Str × β) numKeyLe := ⟨fun a b => le_total _ _⟩

instance {β : Type} : IsTrans (Str × β) numKeyLe := ⟨fun _ _ _ h1 h2 => le_trans h1 h2⟩

/-- Enumeration order of a JS object's own string keys
(`OrdinaryOwnPropertyKeys`): array-index keys first in ascending numeric
order, then the remaining keys in assignment order.  Applied wherever the
source observes an object's key order. -/
def objEnum {β : Type} (l : List (Str × β)) : List (Str × β) :=
  List.insertionSort numKeyLe (l.filter (fun p => isArrayIndex p.1)) ++
    l.filter (fun p => !isArrayIndex p.1)

/-- One iteration of the `for (const topic of topics)` loop in
`updateTopicIndex`: materialize the topic's list, and when `authorRef` is
missing push it and sort the list. -/
def tiStep (authorRef : Str) (ti : TopicIndex) (topic : Str) : TopicIndex :=
  let refs := (lookupKey ti topic).getD []
  let ti2 := if hasKey ti topic then ti else ti ++ [(topic, [])]
  if authorRef ∈ refs then ti2 else setKey ti2 topic (sortStrs (refs ++ [authorRef]))

/-- `updateTopicIndex(kb, topics, authorRef)`.  The rebuild reads
`Object.keys(kb.topic_index)` — the worked object's enumeration order,
i.e. `objEnum` of the worked entry list — sorts those keys
lexicographically and reassigns each into a fresh object (`sortPairs`);
the fresh object's own enumeration again hoists array-index keys (outer
`objEnum`), so for integer-like topic keys the stored key order is NOT
the lexicographically sorted one. -/
def updateTopicIndex (kb : KB) (topics : List Str) (authorRef : Str) : KB :=
  { kb with topic_index := some (objEnum (sortPairs (objEnum (topics.foldl (tiStep authorRef) (kb.topic_index.getD []))))) }

/-! ## Bookmark document builder -/

def isSlugChar (c : Char) : Bool :=
  ('a' ≤ c ∧ c ≤ 'z') ∨ ('0' ≤ c ∧ c ≤ '9')

/-- Model of `.replace(/[^a-z0-9]+/g, '-')`: each maximal run of
non-alphanumeric characters collapses to a single hyphen. -/
def collapseNonAlnum (s : Str) : Str :=
  s.foldr (fun c acc =>
    if isSlugChar c then c :: acc
    else if acc.head? = some '-' then acc else '-' :: acc) []

/-- Model of `.replace(/^-+|-+$/g, '')`. -/
def trimHyphens (s : Str) : Str :=
  ((s.dropWhile (fun c => c = '-')).reverse.dropWhile (fun c => c = '-')).reverse

/-- `generateSlug(title, url, datePublished)`.  `parseDate` is the oracle
for `new Date(s)`: `some d` is the `toISOString().split('T')[0]` date of a
valid parse, `none` an invalid date; `today` is the current date. -/
def generateSlug (title url datePublished : Str) (parseDate : Str → Option Str) (today : Str) : Str :=
  let dateStr := if datePublished ≠ [] then (parseDate datePublished).getD today else today
  let slugText :=
    if title ≠ [] then title
    else
      match parseUrl url with
      | some u => u.path.map (fun c => if c = '/' then ' ' else c)
      | none => (r"untitled").toList
  let slug := (trimHyphens (collapseNonAlnum (toLowerStr slugText))).take 80
  dateStr ++ '_' :: slug

/-- The native host's reply to the `create_bookmark` action. -/
structure CreateResult where
  success : Bool
  error : Option Str := none
  path : Str := []
  sha256 : Str := []
deriving DecidableEq

structure BookmarkOutcome where
  success : Bool
  slug : Str
  path : Str
  sha256 : Str
  hasFullContent : Bool
  contentLength : Nat
deriving DecidableEq

/-- `saveBookmark`, reduced to the persistence control flow the claims
are about.  `create` is the native host's answer to `create_bookmark`;
`kbUpdate` is the outcome of the `saveToKB` call (the secondary Index
Document update), `Except.error` modelling a throw; `bodyMarkdown` is the
already-converted body.  The returned triple is (response or throw, the
resulting Index Document, whether the secondary update was attempted). -/
def saveBookmark (contentData : Option Content) (parseDate : Str → Option Str) (today : Str)
    (bodyMarkdown : Str) (hasFullHtml : Bool) (create : CreateResult)
    (kbUpdate : Except Str KB) (kb : KB) : Except Str BookmarkOutcome × KB × Bool :=
  let t := (contentData.bind (fun c => c.title)).getD []
  let title := if t = [] then (r"Untitled").toList else t
  let sourceUrl := match contentData with
    | some c => c.url
    | none => []
  let dp1 := (contentData.bind (fun c => c.date_published)).getD []
  let datePublished := if dp1 ≠ [] then dp1 else (contentData.bind (fun c => c.date)).getD []
  let slug := generateSlug title sourceUrl datePublished parseDate today
  if create.success = false then
    (Except.error ((create.error).getD ((r"Failed to create bookmark folder").toList)), kb, false)
  else
    let kb2 := match kbUpdate with
      | Except.ok k => k
      | Except.error _ => kb
    (Except.ok { success := true, slug := slug, path := create.path, sha256 := create.sha256,
                 hasFullContent := hasFullHtml, contentLength := bodyMarkdown.length }, kb2, true)

/-- The part of a (tracking-stripped) href that follows `host + '/'` in
the service worker's `normalizeUrl`: rest of path, re-serialized query,
hash. -/
def swTail (pathTail : Str) (query : List (Str × Str)) (frag : Option Str) : Str :=
  pathTail ++ renderQuery (filterTracking swTrackingParams query) ++ renderHash frag

/-- The same for the deduplication utility (its fragment handling is
separate, so the tail is path rest plus re-serialized query). -/
def dedupTail (pathTail : Str) (query : List (Str × Str)) : Str :=
  pathTail ++ renderQuery (filterTracking Dedup.dedupTrackingParams query)

/-! ## Invariant predicates on the topic index -/

def tiKeysSorted (ti : TopicIndex) : Prop :=
  List.Sorted (fun a b : Str => a ≤ b) (ti.map Prod.fst)

def tiKeysNodup (ti : TopicIndex) : Prop :=
  (ti.map Prod.fst).Nodup

def tiRefsOk (ti : TopicIndex) : Prop :=
  ∀ p ∈ ti, List.Sorted (fun a b : Str => a ≤ b) p.2 ∧ p.2.Nodup

instance (ti : TopicIndex) : Decidable (tiKeysSorted ti) := by
  unfold tiKeysSorted List.Sorted; infer_instance

instance (ti : TopicIndex) : Decidable (tiKeysNodup ti) := by
  unfold tiKeysNodup; infer_instance

instance (ti : TopicIndex) : Decidable (tiRefsOk ti) := by
  unfold tiRefsOk List.Sorted
  exact List.decidableBAll _ ti

/-! ## Concrete example values used as witnesses -/

/-- A stored linkedin author whose profile URL carries display casing and
a trailing slash. -/
def exLinkedinStored : Author :=
  { profile_url := some ((r"https://www.linkedin.com/in/John-Doe/").toList),
    name := some ((r"John").toList),
    topics := some [(r"ai").toList] }

/-- The same profile saved again: lowercased, no trailing slash, new topic. -/
def exLinkedinIncoming : Author :=
  { profile_url := some ((r"https://www.linkedin.com/in/john-doe").toList),
    topics := some [(r"ml").toList] }

/-- An Index Document holding just the stored linkedin author. -/
def exLinkedinKB : KB := { favorite_authors := some [(strLinkedin, [exLinkedinStored])] }

/-- A well-formed topic index (keys unique, each reference list sorted
and duplicate-free) whose keys are not yet in sorted order. -/
def exTopicKB : KB :=
  { topic_index := some
      [((r"ml").toList, [(r"@a").toList, (r"@b").toList]),
       ((r"ai").toList, [(r"@c").toList])] }

def exTopics : List Str := [(r"ai").toList, (r"agents").toList]

def exRef : Str := (r"@zed").toList

/-- A concrete extracted content record for the bookmark witnesses. -/
def exBookmarkContent : Content :=
  { url := (r"https://a.com/p").toList, title := some ((r"A Post").toList) }

/-- A successful `create_bookmark` reply. -/
def exCreateOk : CreateResult :=
  { success := true, path := (r"/kb/08_bookmarked_content/x").toList }

/-- A failing outcome of the secondary `saveToKB` update. -/
def exKbFail : Except Str KB := Except.error ((r"write failed").toList)

/-- A query string carrying a tracking parameter next to a real one. -/
def exQ1 : List (Str × Str) :=
  [((r"utm_source").toList, (r"tw").toList), ((r"x").toList, (r"1").toList)]

/-- The same query with the tracking parameter absent. -/
def exQ2 : List (Str × Str) := [((r"x").toList, (r"1").toList)]

/-- A parsed URL carrying the tracking parameter. -/
def exUrlT1 : JsUrl :=
  { scheme := (r"https").toList, host := (r"a.com").toList, path := (r"/p").toList,
    query := exQ1, fragment := none }

/-- The same parsed URL without the tracking parameter. -/
def exUrlT2 : JsUrl :=
  { scheme := (r"https").toList, host := (r"a.com").toList, path := (r"/p").toList,
    query := exQ2, fragment := none }

/-- A parsed URL whose query is tracking-only (stripped to nothing). -/
def exUrlSlash : JsUrl :=
  { scheme := (r"https").toList, host := (r"a.com").toList, path := (r"/p").toList,
    query := [((r"utm_source").toList, (r"t").toList)], fragment := none }

/-! ## Association-list lemmas -/

theorem lookupKey_eq_none_iff {β : Type} (l : List (Str × β)) (k : Str) :
    lookupKey l k = none ↔ ∀ p ∈ l, p.1 ≠ k := by
  induction l with
  | nil => exact ⟨fun _ p hp => absurd hp (List.not_mem_nil p), fun _ => rfl⟩
  | cons hd t ih =>
    obtain ⟨k2, v⟩ := hd
    by_cases hk : k2 = k
    · subst hk
      constructor
      · intro h
        rw [lookupKey, if_pos rfl] at h
        exact absurd h (by simp)
      · intro h
        exact absurd rfl (h (k2, v) (List.mem_cons_self _ _))
    · constructor
      · intro h p hp
        rw [lookupKey, if_neg hk] at h
        rcases List.mem_cons.1 hp with h1 | h2
        · rw [h1]; exact hk
        · exact (ih.1 h) p h2
      · intro h
        rw [lookupKey, if_neg hk]
        exact ih.2 (fun p hp => h p (List.mem_cons_of_mem _ hp))

theorem lookupKey_mem {β : Type} {l : List (Str × β)} {k : Str} {v : β}
    (h : lookupKey l k = some v) : (k, v) ∈ l := by
  induction l with
  | nil => simp [lookupKey] at h
  | cons hd t ih =>
    obtain ⟨k2, v2⟩ := hd
    by_cases hk : k2 = k
    · subst hk
      simp [lookupKey] at h
      simp [h]
    · simp [lookupKey, hk] at h
      exact List.mem_cons_of_mem _ (ih h)

theorem lookupKey_append_left {β : Type} {l m : List (Str × β)} {k : Str} {v : β}
    (h : lookupKey l k = some v) : lookupKey (l ++ m) k = some v := by
  induction l with
  | nil => simp [lookupKey] at h
  | cons hd t ih =>
    obtain ⟨k2, v2⟩ := hd
    by_cases hk : k2 = k
    · subst hk
      simp [lookupKey] at h ⊢
      exact h
    · simp [lookupKey, hk] at h ⊢
      exact ih h

theorem lookupKey_append_right {β : Type} {l : List (Str × β)} {k : Str}
    (m : List (Str × β)) (h : lookupKey l k = none) :
    lookupKey (l ++ m) k = lookupKey m k := by
  induction l with
  | nil => simp
  | cons hd t ih =>
    obtain ⟨k2, v2⟩ := hd
    by_cases hk : k2 = k
    · subst hk
      simp [lookupKey] at h
    · simp [lookupKey, hk] at h ⊢
      exact ih h

theorem lookupKey_setKey_self {β : Type} (l : List (Str × β)) (k : Str) (v : β) :
    lookupKey (setKey l k v) k = some v := by
  induction l with
  | nil => simp [setKey, lookupKey]
  | cons hd t ih =>
    obtain ⟨k2, v2⟩ := hd
    by_cases hk : k2 = k
    · simp [setKey, hk, lookupKey]
    · simp [setKey, hk, lookupKey, ih]

theorem lookupKey_setKey_ne {β : Type} (l : List (Str × β)) (k : Str) (v : β)
    {k2 : Str} (h : k2 ≠ k) : lookupKey (setKey l k v) k2 = lookupKey l k2 := by
  have hne : ¬ k = k2 := fun hh => h hh.symm
  induction l with
  | nil =>
    show lookupKey [(k, v)] k2 = lookupKey [] k2
    simp only [lookupKey, if_neg hne]
  | cons hd t ih =>
    obtain ⟨k3, v3⟩ := hd
    by_cases hk : k3 = k
    · subst hk
      simp only [setKey, if_pos rfl, lookupKey, if_neg hne]
    · simp only [setKey, if_neg hk, lookupKey]
      by_cases hk2 : k3 = k2
      · rw [if_pos hk2, if_pos hk2]
      · rw [if_neg hk2, if_neg hk2, ih]

theorem setKey_append_of_absent {β : Type} {l : List (Str × β)} {k : Str}
    (h : ∀ p ∈ l, p.1 ≠ k) (m : List (Str × β)) (v : β) :
    setKey (l ++ m) k v = l ++ setKey m k v := by
  induction l with
  | nil => simp
  | cons hd t ih =>
    obtain ⟨k2, v2⟩ := hd
    have hne : k2 ≠ k := h (k2, v2) (List.mem_cons_self _ _)
    simp only [List.cons_append, setKey, hne, if_false, List.cons.injEq, true_and]
    exact ih (fun p hp => h p (List.mem_cons_of_mem _ hp))

theorem mem_setKey {β : Type} {l : List (Str × β)} {k : Str} {v : β} {p : Str × β}
    (h : p ∈ setKey l k v) : p ∈ l ∨ p = (k, v) := by
  induction l with
  | nil =>
    simp [setKey] at h
    exact Or.inr h
  | cons hd t ih =>
    obtain ⟨k2, v2⟩ := hd
    by_cases hk : k2 = k
    · subst hk
      simp only [setKey, if_pos rfl] at h
      rcases List.mem_cons.1 h with h1 | h2
      · exact Or.inr h1
      · exact Or.inl (List.mem_cons_of_mem _ h2)
    · simp only [setKey, hk, if_false] at h
      rcases List.mem_cons.1 h with h1 | h2
      · exact Or.inl (by simp [h1])
      · rcases ih h2 with h3 | h4
        · exact Or.inl (List.mem_cons_of_mem _ h3)
        · exact Or.inr h4

theorem map_fst_setKey_present {β : Type} {l : List (Str × β)} {k : Str}
    (h : hasKey l k = true) (v : β) : (setKey l k v).map Prod.fst = l.map Prod.fst := by
  induction l with
  | nil => simp [hasKey, lookupKey] at h
  | cons hd t ih =>
    obtain ⟨k2, v2⟩ := hd
    by_cases hk : k2 = k
    · simp [setKey, hk]
    · simp only [hasKey, lookupKey, hk, if_false] at h
      simp [setKey, hk, ih h]

/-! ## Upsert lemmas -/

theorem upsertInList_of_find_none {platform : Str} {idf : Identifier} {i : Author} :
    ∀ {l : List Author}, l.find? (matchesAuthor platform idf) = none →
      upsertInList platform idf i l = (l, none) := by
  intro l
  induction l with
  | nil => intro _; rfl
  | cons a t ih =>
    intro h
    rw [List.find?_eq_none] at h
    have ha : ¬ matchesAuthor platform idf a = true := h a (List.mem_cons_self _ _)
    have ht : t.find? (matchesAuthor platform idf) = none :=
      List.find?_eq_none.2 (fun x hx => h x (List.mem_cons_of_mem _ hx))
    simp [upsertInList, ha, ih ht]

theorem upsertInList_of_find_some {platform : Str} {idf : Identifier} {i : Author} :
    ∀ {l : List Author} {ex : Author}, l.find? (matchesAuthor platform idf) = some ex →
      (upsertInList platform idf i l).2 = some (mergeTopics ex i) ∧
      (upsertInList platform idf i l).1.length = l.length := by
  intro l
  induction l with
  | nil => intro ex h; simp at h
  | cons a t ih =>
    intro ex h
    by_cases ha : matchesAuthor platform idf a = true
    · rw [List.find?_cons_of_pos _ ha] at h
      cases h
      simp [upsertInList, ha]
    · rw [List.find?_cons_of_neg _ ha] at h
      have := ih h
      simp [upsertInList, ha, this.1, this.2]

theorem lookup_ensurePlatform (fa : FavAuthors) (platform : Str) :
    (lookupKey (ensurePlatform fa platform) platform).getD [] =
      (lookupKey fa platform).getD [] := by
  unfold ensurePlatform
  cases h : hasKey fa platform
  · have hn : lookupKey fa platform = none := by
      unfold hasKey at h
      exact Option.not_isSome_iff_eq_none.1 (by simp [h])
    rw [if_neg (by simp), lookupKey_append_right _ hn, hn]
    simp [lookupKey]
  · rw [if_pos rfl]

theorem addOrUpdateAuthor_found (kb : KB) (platform : Str) (a ex : Author)
    (h : findAuthor kb platform (getAuthorIdentifier platform a) = some ex) :
    (addOrUpdateAuthor kb platform a).isNew = false ∧
    (addOrUpdateAuthor kb platform a).author = mergeTopics ex a ∧
    (authorsOf (addOrUpdateAuthor kb platform a).kb platform).length =
      (authorsOf kb platform).length := by
  unfold findAuthor authorsOf at h
  have hu := upsertInList_of_find_some (i := a)
    (l := (lookupKey (ensurePlatform (kb.favorite_authors.getD []) platform) platform).getD [])
    (by rw [lookup_ensurePlatform]; exact h)
  unfold addOrUpdateAuthor
  simp only [hu.1]
  refine ⟨trivial, trivial, ?_⟩
  simp only [authorsOf, Option.getD_some, lookupKey_setKey_self]
  rw [hu.2, lookup_ensurePlatform]

theorem addOrUpdateAuthor_notFound (kb : KB) (platform : Str) (a : Author)
    (h : findAuthor kb platform (getAuthorIdentifier platform a) = none) :
    (addOrUpdateAuthor kb platform a).isNew = true ∧
    (addOrUpdateAuthor kb platform a).author = a ∧
    authorsOf (addOrUpdateAuthor kb platform a).kb platform = authorsOf kb platform ++ [a] := by
  unfold findAuthor authorsOf at h
  have hu := upsertInList_of_find_none (i := a)
    (l := (lookupKey (ensurePlatform (kb.favorite_authors.getD []) platform) platform).getD [])
    (by rw [lookup_ensurePlatform]; exact h)
  unfold addOrUpdateAuthor
  simp only [hu]
  refine ⟨trivial, trivial, ?_⟩
  simp only [authorsOf, Option.getD_some, lookupKey_setKey_self]
  rw [lookup_ensurePlatform]

theorem matchesAuthor_unknown {platform : Str} (h1 : platform ≠ strX)
    (h2 : platform ≠ strLinkedin) (h3 : platform ≠ strSubstack)
    (h4 : platform ≠ strGeneric) (idf : Identifier) (a : Author) :
    matchesAuthor platform idf a = false := by
  simp [matchesAuthor, h1, h2, h3, h4]

theorem findAuthor_unknown (kb : KB) {platform : Str} (idf : Identifier)
    (h1 : platform ≠ strX) (h2 : platform ≠ strLinkedin) (h3 : platform ≠ strSubstack)
    (h4 : platform ≠ strGeneric) : findAuthor kb platform idf = none :=
  List.find?_eq_none.2 (fun a _ => by simp [matchesAuthor_unknown h1 h2 h3 h4 idf a])

/-! ## Set-union and content lemmas -/

theorem mem_dedupeFoldl (l : List Str) :
    ∀ (acc : List Str) (x : Str),
      (x ∈ l.foldl (fun acc x => if x ∈ acc then acc else acc ++ [x]) acc) ↔ x ∈ acc ∨ x ∈ l := by
  induction l with
  | nil => intro acc x; simp
  | cons a t ih =>
    intro acc x
    by_cases ha : a ∈ acc
    · simp only [List.foldl_cons, if_pos ha, ih]
      constructor
      · rintro (h | h)
        · exact Or.inl h
        · exact Or.inr (List.mem_cons_of_mem _ h)
      · rintro (h | h)
        · exact Or.inl h
        · rcases List.mem_cons.1 h with h1 | h2
          · exact Or.inl (h1 ▸ ha)
          · exact Or.inr h2
    · simp only [List.foldl_cons, if_neg ha, ih]
      simp only [List.mem_append, List.mem_singleton, List.mem_cons]
      tauto

theorem mem_jsSetUnion {a b : List Str} {x : Str} : x ∈ jsSetUnion a b ↔ x ∈ a ∨ x ∈ b := by
  unfold jsSetUnion
  rw [mem_dedupeFoldl]
  simp

theorem mergeTopics_preserves (ex inc : Author) :
    ∀ t ∈ ex.topics.getD [], t ∈ (mergeTopics ex inc).topics.getD [] := by
  intro t ht
  unfold mergeTopics
  cases hit : inc.topics with
  | none => exact ht
  | some ts =>
    simp only [Option.getD_some]
    exact mem_jsSetUnion.2 (Or.inl ht)

theorem mergeTopics_absorbs (ex inc : Author) {ts : List Str} (h : inc.topics = some ts) :
    ∀ t ∈ ts, t ∈ (mergeTopics ex inc).topics.getD [] := by
  intro t ht
  unfold mergeTopics
  rw [h]
  simp only [Option.getD_some]
  exact mem_jsSetUnion.2 (Or.inr ht)

theorem savedContentOf_ensure (a : Author) (platform : Str) :
    savedContentOf (ensureContentList a platform) platform = savedContentOf a platform := by
  unfold savedContentOf ensureContentList
  by_cases hp : platform = strX ∨ platform = strLinkedin
  · simp only [hp, if_true]
    cases h : a.saved_posts <;> simp [h]
  · simp only [hp, if_false]
    cases h : a.saved_articles <;> simp [h]

theorem contentExists_ensure (a : Author) (url platform : Str) :
    contentExists (ensureContentList a platform) url platform = contentExists a url platform := by
  unfold contentExists
  rw [savedContentOf_ensure]

theorem savedContentOf_push (a : Author) (platform : Str) (c : Content) :
    savedContentOf (pushContent a platform c) platform = savedContentOf a platform ++ [c] := by
  unfold savedContentOf pushContent
  by_cases hp : platform = strX ∨ platform = strLinkedin
  · simp [hp]
  · simp [hp]

theorem ensure_push (a : Author) (platform : Str) (c : Content) :
    ensureContentList (pushContent a platform c) platform = pushContent a platform c := by
  unfold ensureContentList pushContent
  by_cases hp : platform = strX ∨ platform = strLinkedin
  · simp [hp]
  · simp [hp]

theorem addContent_new (a : Author) (platform : Str) (c : Content) (d : Str)
    (h : contentExists a c.url platform = false) :
    addContent a platform c d =
      (pushContent (ensureContentList a platform) platform { c with date_saved := some d },
        { success := true }) := by
  have h1 : contentExists (ensureContentList a platform) c.url platform = false := by
    rw [contentExists_ensure]; exact h
  simp only [addContent, h1]
  simp

theorem addContent_duplicate (a : Author) (platform : Str) (c : Content) (d : Str)
    (hens : ensureContentList a platform = a)
    (hdup : contentExists a c.url platform = true) :
    addContent a platform c d =
      (a, { success := false, reason := some ((r"duplicate").toList) }) := by
  simp only [addContent, hens, hdup]
  simp

/-! ## Claim theorems: author/content identity -/

/-- Claim C1 (counterexample): `addOrUpdateAuthor` does not reject an
unknown platform.  Upserting an author under platform `mastodon` into the
empty Index Document stores the record under that platform key and
reports `isNew`, instead of failing with `UnknownPlatform` and storing
nothing. -/
theorem claim_C1_counterexample :
    (addOrUpdateAuthor {} ((r"mastodon").toList) { name := some ((r"Ann").toList) }).isNew = true ∧
    authorsOf (addOrUpdateAuthor {} ((r"mastodon").toList) { name := some ((r"Ann").toList) }).kb
        ((r"mastodon").toList) = [{ name := some ((r"Ann").toList) }] := by
  constructor
  · rfl
  · rfl

/-- Claim C1 (amended): `addOrUpdateAuthor` performs no platform
validation.  For every platform string outside the enum
`{x, linkedin, substack, generic_web}` it appends the incoming author
record under that platform key (no existing author can match, since
`findAuthor` has no branch for an unknown platform) and reports
`isNew: true`; no rejection happens. -/
theorem claim_C1 (kb : KB) (platform : Str) (authorData : Author)
    (h : platform ∉ [strX, strLinkedin, strSubstack, strGeneric]) :
    (addOrUpdateAuthor kb platform authorData).isNew = true ∧
    authorsOf (addOrUpdateAuthor kb platform authorData).kb platform =
      authorsOf kb platform ++ [authorData] := by
  simp only [List.mem_cons, List.mem_singleton, not_or] at h
  obtain ⟨h1, h2, h3, h4, -⟩ := h
  have hf := findAuthor_unknown kb (getAuthorIdentifier platform authorData) h1 h2 h3 h4
  have := addOrUpdateAuthor_notFound kb platform authorData hf
  exact ⟨this.1, this.2.2⟩

/-- Witness for C1 at a concrete unknown platform. -/
theorem claim_C1_witness :
    ((r"mastodon").toList ∉ [strX, strLinkedin, strSubstack, strGeneric]) ∧
    ((addOrUpdateAuthor {} ((r"mastodon").toList) { handle := some ((r"ann").toList) }).isNew = true ∧
      authorsOf (addOrUpdateAuthor {} ((r"mastodon").toList)
          { handle := some ((r"ann").toList) }).kb ((r"mastodon").toList) =
        authorsOf ({} : KB) ((r"mastodon").toList) ++ [{ handle := some ((r"ann").toList) }]) :=
  ⟨by decide, claim_C1 {} ((r"mastodon").toList) { handle := some ((r"ann").toList) } (by decide)⟩

/-- Claim C2: adding the same normalized content URL twice under one
author stores exactly one item.  The first call stamps `date_saved` with
the current date and appends, returning success; the second call returns
`success: false, reason: duplicate` and leaves the author record
untouched. -/
theorem claim_C2 (a : Author) (platform : Str) (c c2 : Content) (d1 d2 : Str)
    (hurl : normalizeUrl c2.url = normalizeUrl c.url)
    (hnew : contentExists a c.url platform = false) :
    (addContent a platform c d1).2 = { success := true } ∧
    savedContentOf (addContent a platform c d1).1 platform =
      savedContentOf a platform ++ [{ c with date_saved := some d1 }] ∧
    (savedContentOf (addContent a platform c d1).1 platform).countP
      (fun item => decide (normalizeUrl item.url = normalizeUrl c.url)) = 1 ∧
    (addContent (addContent a platform c d1).1 platform c2 d2).2 =
      { success := false, reason := some ((r"duplicate").toList) } ∧
    (addContent (addContent a platform c d1).1 platform c2 d2).1 =
      (addContent a platform c d1).1 := by
  have hall : ∀ item ∈ savedContentOf a platform,
      ¬ normalizeUrl item.url = normalizeUrl c.url := by
    intro item hitem
    simp only [contentExists] at hnew
    rw [List.any_eq_false] at hnew
    have h2 := hnew item hitem
    simpa using h2
  have hcount0 : (savedContentOf a platform).countP
      (fun item => decide (normalizeUrl item.url = normalizeUrl c.url)) = 0 := by
    rw [List.countP_eq_zero]
    intro item hitem
    simpa using hall item hitem
  have hr1 := addContent_new a platform c d1 hnew
  have hsaved1 : savedContentOf (addContent a platform c d1).1 platform =
      savedContentOf a platform ++ [{ c with date_saved := some d1 }] := by
    rw [hr1]
    show savedContentOf (pushContent (ensureContentList a platform) platform _) platform = _
    rw [savedContentOf_push, savedContentOf_ensure]
  have hdup : contentExists (addContent a platform c d1).1 c2.url platform = true := by
    simp only [contentExists]
    rw [List.any_eq_true]
    refine ⟨{ c with date_saved := some d1 }, ?_, ?_⟩
    · rw [hsaved1]
      simp
    · simp [hurl]
  have hens2 : ensureContentList (addContent a platform c d1).1 platform =
      (addContent a platform c d1).1 := by
    rw [hr1]
    show ensureContentList (pushContent (ensureContentList a platform) platform _) platform = _
    rw [ensure_push]
  have hr2 := addContent_duplicate (addContent a platform c d1).1 platform c2 d2 hens2 hdup
  refine ⟨by rw [hr1], hsaved1, ?_, by rw [hr2], by rw [hr2]⟩
  rw [hsaved1, List.countP_append, hcount0]
  simp

/-- Witness for C2: a substack article saved twice, the second time with
an added tracking parameter. -/
theorem claim_C2_witness :
    (normalizeUrl ((r"https://blog.example.com/post?utm_source=tw").toList) =
      normalizeUrl ((r"https://blog.example.com/post").toList) ∧
     contentExists {} ((r"https://blog.example.com/post").toList) strSubstack = false) ∧
    ((addContent {} strSubstack { url := (r"https://blog.example.com/post").toList }
        ((r"2026-10-11").toList)).2 = { success := true } ∧
     savedContentOf (addContent {} strSubstack
        { url := (r"https://blog.example.com/post").toList } ((r"2026-10-11").toList)).1
        strSubstack =
      savedContentOf ({} : Author) strSubstack ++
        [{ url := (r"https://blog.example.com/post").toList, date_saved := some ((r"2026-10-11").toList) }] ∧
     (savedContentOf (addContent {} strSubstack
        { url := (r"https://blog.example.com/post").toList } ((r"2026-10-11").toList)).1
        strSubstack).countP
      (fun item => decide (normalizeUrl item.url =
        normalizeUrl ((r"https://blog.example.com/post").toList))) = 1 ∧
     (addContent (addContent {} strSubstack
        { url := (r"https://blog.example.com/post").toList } ((r"2026-10-11").toList)).1
        strSubstack { url := (r"https://blog.example.com/post?utm_source=tw").toList }
        ((r"2026-10-12").toList)).2 =
      { success := false, reason := some ((r"duplicate").toList) } ∧
     (addContent (addContent {} strSubstack
        { url := (r"https://blog.example.com/post").toList } ((r"2026-10-11").toList)).1
        strSubstack { url := (r"https://blog.example.com/post?utm_source=tw").toList }
        ((r"2026-10-12").toList)).1 =
      (addContent {} strSubstack { url := (r"https://blog.example.com/post").toList }
        ((r"2026-10-11").toList)).1) :=
  ⟨⟨by decide, by decide⟩,
    claim_C2 {} strSubstack { url := (r"https://blog.example.com/post").toList }
      { url := (r"https://blog.example.com/post?utm_source=tw").toList }
      ((r"2026-10-11").toList) ((r"2026-10-12").toList) (by decide) (by decide)⟩

/-- Claim C3: `addOrUpdateAuthor` upsert semantics.  When an author with
the same normalized identity exists, its topics are union-merged with the
incoming ones (none removed, incoming absorbed), `isNew` is false and no
second record appears; when none exists, the record is appended at the
end of the platform list and `isNew` is true. -/
theorem claim_C3 (kb : KB) (platform : Str) (a : Author) :
    (∀ ex, findAuthor kb platform (getAuthorIdentifier platform a) = some ex →
      (addOrUpdateAuthor kb platform a).isNew = false ∧
      (authorsOf (addOrUpdateAuthor kb platform a).kb platform).length =
        (authorsOf kb platform).length ∧
      (addOrUpdateAuthor kb platform a).author = mergeTopics ex a ∧
      (∀ t ∈ ex.topics.getD [], t ∈ (addOrUpdateAuthor kb platform a).author.topics.getD []) ∧
      (∀ ts, a.topics = some ts →
        ∀ t ∈ ts, t ∈ (addOrUpdateAuthor kb platform a).author.topics.getD [])) ∧
    (findAuthor kb platform (getAuthorIdentifier platform a) = none →
      (addOrUpdateAuthor kb platform a).isNew = true ∧
      authorsOf (addOrUpdateAuthor kb platform a).kb platform =
        authorsOf kb platform ++ [a]) := by
  constructor
  · intro ex hex
    obtain ⟨hn, hm, hl⟩ := addOrUpdateAuthor_found kb platform a ex hex
    refine ⟨hn, hl, hm, ?_, ?_⟩
    · rw [hm]
      exact mergeTopics_preserves ex a
    · intro ts hts
      rw [hm]
      exact mergeTopics_absorbs ex a hts
  · intro hnone
    obtain ⟨hn, _, hl⟩ := addOrUpdateAuthor_notFound kb platform a hnone
    exact ⟨hn, hl⟩

/-- Witness for C3: the end-to-end linkedin scenario.  A second save of
the same profile URL with different casing and a dropped trailing slash
matches the stored author, merges the topics and creates no second
record. -/
theorem claim_C3_witness :
    findAuthor exLinkedinKB strLinkedin (getAuthorIdentifier strLinkedin exLinkedinIncoming) =
      some exLinkedinStored ∧
    (addOrUpdateAuthor exLinkedinKB strLinkedin exLinkedinIncoming).isNew = false ∧
    (authorsOf (addOrUpdateAuthor exLinkedinKB strLinkedin exLinkedinIncoming).kb
        strLinkedin).length = (authorsOf exLinkedinKB strLinkedin).length ∧
    (∀ t ∈ exLinkedinStored.topics.getD [],
      t ∈ (addOrUpdateAuthor exLinkedinKB strLinkedin exLinkedinIncoming).author.topics.getD []) :=
  ⟨by decide,
    ((claim_C3 exLinkedinKB strLinkedin exLinkedinIncoming).1 exLinkedinStored (by decide)).1,
    ((claim_C3 exLinkedinKB strLinkedin exLinkedinIncoming).1 exLinkedinStored (by decide)).2.1,
    ((claim_C3 exLinkedinKB strLinkedin exLinkedinIncoming).1 exLinkedinStored (by decide)).2.2.2.1⟩

/-! ## Topic-index lemmas -/

theorem lookupKey_of_mem_nodup {β : Type} {l : List (Str × β)} {k : Str} {v : β}
    (hnd : (l.map Prod.fst).Nodup) (h : (k, v) ∈ l) : lookupKey l k = some v := by
  induction l with
  | nil => exact absurd h (List.not_mem_nil _)
  | cons hd t ih =>
    obtain ⟨k2, v2⟩ := hd
    rcases List.mem_cons.1 h with h1 | h2
    · injection h1 with hk hv
      subst hk
      subst hv
      simp [lookupKey]
    · have hk2 : k2 ≠ k := by
        intro hk
        subst hk
        have hmem : k2 ∈ t.map Prod.fst := List.mem_map.2 ⟨(k2, v), h2, rfl⟩
        rw [List.map_cons, List.nodup_cons] at hnd
        exact hnd.1 hmem
      rw [lookupKey, if_neg hk2]
      refine ih ?_ h2
      rw [List.map_cons, List.nodup_cons] at hnd
      exact hnd.2

theorem lookupKey_perm {β : Type} {l l2 : List (Str × β)} (k : Str)
    (hnd : (l.map Prod.fst).Nodup) (hp : l.Perm l2) : lookupKey l k = lookupKey l2 k := by
  have hnd2 : (l2.map Prod.fst).Nodup := hnd.perm (hp.map Prod.fst)
  cases h : lookupKey l k with
  | some v =>
    exact (lookupKey_of_mem_nodup hnd2 (hp.mem_iff.1 (lookupKey_mem h))).symm
  | none =>
    have hall := (lookupKey_eq_none_iff l k).1 h
    exact ((lookupKey_eq_none_iff l2 k).2 (fun p hp2 => hall p (hp.mem_iff.2 hp2))).symm

theorem sortStrs_sorted (l : List Str) : List.Sorted (fun a b : Str => a ≤ b) (sortStrs l) :=
  List.sorted_insertionSort _ l

theorem sortStrs_perm (l : List Str) : (sortStrs l).Perm l :=
  List.perm_insertionSort _ l

theorem mem_sortStrs {l : List Str} {x : Str} : x ∈ sortStrs l ↔ x ∈ l :=
  List.mem_insertionSort _

theorem tiStep_mem (ti : TopicIndex) (topic ref : Str) {refs : List Str}
    (h : lookupKey ti topic = some refs) (hm : ref ∈ refs) :
    tiStep ref ti topic = ti := by
  have hk : hasKey ti topic = true := by simp [hasKey, h]
  simp [tiStep, h, hk, hm]

theorem tiStep_newTopic (ti : TopicIndex) (topic ref : Str)
    (h : lookupKey ti topic = none) :
    tiStep ref ti topic = ti ++ [(topic, sortStrs [ref])] := by
  have hk : hasKey ti topic = false := by simp [hasKey, h]
  have habs : ∀ p ∈ ti, p.1 ≠ topic := (lookupKey_eq_none_iff ti topic).1 h
  simp only [tiStep, h, hk, Option.getD_none, List.not_mem_nil, if_false,
    Bool.false_eq_true, List.nil_append]
  rw [setKey_append_of_absent habs]
  simp [setKey]

theorem tiStep_addRef (ti : TopicIndex) (topic ref : Str) {refs : List Str}
    (h : lookupKey ti topic = some refs) (hm : ref ∉ refs) :
    tiStep ref ti topic = setKey ti topic (sortStrs (refs ++ [ref])) := by
  have hk : hasKey ti topic = true := by simp [hasKey, h]
  simp [tiStep, h, hk, hm]

theorem tiStep_keysNodup {ti : TopicIndex} (ref topic : Str)
    (hnd : tiKeysNodup ti) : tiKeysNodup (tiStep ref ti topic) := by
  cases h : lookupKey ti topic with
  | none =>
    rw [tiStep_newTopic ti topic ref h]
    unfold tiKeysNodup at hnd ⊢
    rw [List.map_append]
    simp only [List.map_cons, List.map_nil]
    rw [List.nodup_append]
    refine ⟨hnd, List.nodup_singleton _, ?_⟩
    intro x hx hx2
    simp only [List.mem_singleton] at hx2
    obtain ⟨p, hp, hp2⟩ := List.mem_map.1 hx
    exact ((lookupKey_eq_none_iff ti topic).1 h p hp) (hx2 ▸ hp2)
  | some refs =>
    by_cases hm : ref ∈ refs
    · rw [tiStep_mem ti topic ref h hm]; exact hnd
    · rw [tiStep_addRef ti topic ref h hm]
      unfold tiKeysNodup at hnd ⊢
      rw [map_fst_setKey_present (by simp [hasKey, h])]
      exact hnd

theorem tiStep_refsOk {ti : TopicIndex} (ref topic : Str)
    (hok : tiRefsOk ti) : tiRefsOk (tiStep ref ti topic) := by
  cases h : lookupKey ti topic with
  | none =>
    rw [tiStep_newTopic ti topic ref h]
    intro p hp
    rcases List.mem_append.1 hp with h1 | h2
    · exact hok p h1
    · simp only [List.mem_singleton] at h2
      subst h2
      refine ⟨sortStrs_sorted _, ?_⟩
      exact (List.nodup_singleton ref).perm (sortStrs_perm [ref]).symm
  | some refs =>
    by_cases hm : ref ∈ refs
    · rw [tiStep_mem ti topic ref h hm]; exact hok
    · rw [tiStep_addRef ti topic ref h hm]
      intro p hp
      rcases mem_setKey hp with h1 | h2
      · exact hok p h1
      · subst h2
        refine ⟨sortStrs_sorted _, ?_⟩
        have hnd : refs.Nodup := (hok (topic, refs) (lookupKey_mem h)).2
        have hdisj : refs.Disjoint [ref] := by
          intro x hx hx2
          simp only [List.mem_singleton] at hx2
          subst hx2
          exact hm hx
        have : (refs ++ [ref]).Nodup :=
          List.nodup_append.2 ⟨hnd, List.nodup_singleton _, hdisj⟩
        exact this.perm (sortStrs_perm _).symm

theorem tiStep_mono {ti : TopicIndex} (ref topic : Str) {t : Str} {refs : List Str}
    (h : lookupKey ti t = some refs) :
    ∃ refs2, lookupKey (tiStep ref ti topic) t = some refs2 ∧ ∀ x ∈ refs, x ∈ refs2 := by
  cases hl : lookupKey ti topic with
  | none =>
    rw [tiStep_newTopic ti topic ref hl]
    exact ⟨refs, lookupKey_append_left h, fun x hx => hx⟩
  | some refs0 =>
    by_cases hm : ref ∈ refs0
    · rw [tiStep_mem ti topic ref hl hm]
      exact ⟨refs, h, fun x hx => hx⟩
    · rw [tiStep_addRef ti topic ref hl hm]
      by_cases ht : t = topic
      · subst ht
        rw [h] at hl
        cases hl
        refine ⟨sortStrs (refs ++ [ref]), lookupKey_setKey_self .., ?_⟩
        intro x hx
        exact mem_sortStrs.2 (List.mem_append_left _ hx)
      · exact ⟨refs, by rw [lookupKey_setKey_ne _ _ _ ht, h], fun x hx => hx⟩

theorem tiStep_establishes (ti : TopicIndex) (ref topic : Str) :
    ∃ refs, lookupKey (tiStep ref ti topic) topic = some refs ∧ ref ∈ refs := by
  cases hl : lookupKey ti topic with
  | none =>
    rw [tiStep_newTopic ti topic ref hl]
    refine ⟨sortStrs [ref], ?_, mem_sortStrs.2 (List.mem_singleton_self ref)⟩
    rw [lookupKey_append_right _ hl]
    simp [lookupKey]
  | some refs0 =>
    by_cases hm : ref ∈ refs0
    · rw [tiStep_mem ti topic ref hl hm]
      exact ⟨refs0, hl, hm⟩
    · rw [tiStep_addRef ti topic ref hl hm]
      exact ⟨sortStrs (refs0 ++ [ref]), lookupKey_setKey_self ..,
        mem_sortStrs.2 (List.mem_append_right _ (List.mem_singleton_self ref))⟩

theorem foldl_tiStep_keysNodup (ref : Str) :
    ∀ (topics : List Str) (ti : TopicIndex), tiKeysNodup ti →
      tiKeysNodup (topics.foldl (tiStep ref) ti) := by
  intro topics
  induction topics with
  | nil => intro ti h; exact h
  | cons topic rest ih =>
    intro ti h
    exact ih _ (tiStep_keysNodup ref topic h)

theorem foldl_tiStep_refsOk (ref : Str) :
    ∀ (topics : List Str) (ti : TopicIndex), tiRefsOk ti →
      tiRefsOk (topics.foldl (tiStep ref) ti) := by
  intro topics
  induction topics with
  | nil => intro ti h; exact h
  | cons topic rest ih =>
    intro ti h
    exact ih _ (tiStep_refsOk ref topic h)

theorem foldl_tiStep_mono (ref : Str) :
    ∀ (topics : List Str) (ti : TopicIndex) (t : Str) (refs : List Str),
      lookupKey ti t = some refs →
      ∃ refs2, lookupKey (topics.foldl (tiStep ref) ti) t = some refs2 ∧
        ∀ x ∈ refs, x ∈ refs2 := by
  intro topics
  induction topics with
  | nil => intro ti t refs h; exact ⟨refs, h, fun x hx => hx⟩
  | cons topic rest ih =>
    intro ti t refs h
    obtain ⟨refs1, h1, hsub1⟩ := tiStep_mono ref topic h
    obtain ⟨refs2, h2, hsub2⟩ := ih (tiStep ref ti topic) t refs1 h1
    exact ⟨refs2, h2, fun x hx => hsub2 x (hsub1 x hx)⟩

theorem foldl_tiStep_establishes (ref : Str) :
    ∀ (topics : List Str) (ti : TopicIndex) (t : Str), t ∈ topics →
      ∃ refs, lookupKey (topics.foldl (tiStep ref) ti) t = some refs ∧ ref ∈ refs := by
  intro topics
  induction topics with
  | nil => intro ti t h; exact absurd h (List.not_mem_nil t)
  | cons topic rest ih =>
    intro ti t h
    rcases List.mem_cons.1 h with h1 | h2
    · subst h1
      obtain ⟨refs, h1, hm⟩ := tiStep_establishes ti ref t
      obtain ⟨refs2, h2, hsub⟩ := foldl_tiStep_mono ref rest (tiStep ref ti t) t refs h1
      exact ⟨refs2, h2, hsub ref hm⟩
    · exact ih (tiStep ref ti topic) t h2

theorem foldl_tiStep_id (ref : Str) :
    ∀ (topics : List Str) (ti : TopicIndex),
      (∀ t ∈ topics, ∃ refs, lookupKey ti t = some refs ∧ ref ∈ refs) →
      topics.foldl (tiStep ref) ti = ti := by
  intro topics
  induction topics with
  | nil => intro ti _; rfl
  | cons topic rest ih =>
    intro ti h
    obtain ⟨refs, hl, hm⟩ := h topic (List.mem_cons_self _ _)
    rw [List.foldl_cons, tiStep_mem ti topic ref hl hm]
    exact ih ti (fun t ht => h t (List.mem_cons_of_mem _ ht))

theorem sortPairs_perm (ti : TopicIndex) : (sortPairs ti).Perm ti :=
  List.perm_insertionSort keyLe ti

theorem sortPairs_keysSorted (ti : TopicIndex) : tiKeysSorted (sortPairs ti) := by
  have hs : List.Sorted keyLe (sortPairs ti) := List.sorted_insertionSort keyLe ti
  exact List.Pairwise.map Prod.fst (fun _ _ h => h) hs

theorem sortPairs_refsOk {ti : TopicIndex} (h : tiRefsOk ti) : tiRefsOk (sortPairs ti) :=
  fun p hp => h p ((sortPairs_perm ti).mem_iff.1 hp)

theorem sortPairs_keysNodup {ti : TopicIndex} (h : tiKeysNodup ti) :
    tiKeysNodup (sortPairs ti) :=
  h.perm ((sortPairs_perm ti).map Prod.fst).symm

theorem sortPairs_lookup {ti : TopicIndex} (k : Str) (h : tiKeysNodup ti) :
    lookupKey (sortPairs ti) k = lookupKey ti k :=
  (lookupKey_perm k h (sortPairs_perm ti).symm).symm

theorem sortPairs_sorted (ti : TopicIndex) : List.Sorted keyLe (sortPairs ti) :=
  List.sorted_insertionSort keyLe ti

theorem sortPairs_sorted_eq {ti : TopicIndex} (h : List.Sorted keyLe ti) :
    sortPairs ti = ti :=
  h.insertionSort_eq

/-! ## Enumeration-order lemmas -/

theorem objEnum_perm {β : Type} (l : List (Str × β)) : (objEnum l).Perm l :=
  ((List.perm_insertionSort numKeyLe _).append_right _).trans
    (List.filter_append_perm _ l)

theorem objEnum_keysNodup {β : Type} {l : List (Str × β)}
    (h : (l.map Prod.fst).Nodup) : ((objEnum l).map Prod.fst).Nodup :=
  h.perm ((objEnum_perm l).map Prod.fst).symm

theorem lookup_objEnum {β : Type} {l : List (Str × β)} (k : Str)
    (h : (l.map Prod.fst).Nodup) : lookupKey (objEnum l) k = lookupKey l k :=
  lookupKey_perm k (objEnum_keysNodup h) (objEnum_perm l)

theorem objEnum_id_of_no_index {β : Type} {l : List (Str × β)}
    (h : ∀ p ∈ l, isArrayIndex p.1 = false) : objEnum l = l := by
  unfold objEnum
  rw [List.filter_eq_nil_iff.2 (fun p hp => by simp [h p hp]),
    List.filter_eq_self.2 (fun p hp => by simp [h p hp])]
  rfl

theorem objEnum_eq_of_parts {β : Type} {l m : List (Str × β)}
    (h1 : ∀ p ∈ l, isArrayIndex p.1 = true) (h2 : ∀ p ∈ m, isArrayIndex p.1 = false)
    (hs : List.Sorted numKeyLe l) : objEnum (l ++ m) = l ++ m := by
  unfold objEnum
  rw [List.filter_append, List.filter_append,
    List.filter_eq_self.2 h1,
    List.filter_eq_nil_iff.2 (fun p hp => by simp [h2 p hp]),
    List.filter_eq_nil_iff.2 (fun p hp => by simp [h1 p hp]),
    List.filter_eq_self.2 (fun p hp => by simp [h2 p hp]),
    List.append_nil, List.nil_append, hs.insertionSort_eq]

theorem objEnum_idem {β : Type} (l : List (Str × β)) :
    objEnum (objEnum l) = objEnum l :=
  objEnum_eq_of_parts
    (fun p hp => by
      simpa using List.of_mem_filter ((List.perm_insertionSort numKeyLe _).mem_iff.1 hp))
    (fun p hp => by simpa using List.of_mem_filter hp)
    (List.sorted_insertionSort numKeyLe _)

theorem sorted_keyLe_nodup_eq {β : Type} :
    ∀ {m n : List (Str × β)}, m.Perm n → List.Sorted keyLe m →
      List.Sorted keyLe n → (m.map Prod.fst).Nodup → m = n := by
  intro m
  induction m with
  | nil =>
    intro n hp _ _ _
    exact hp.nil_eq
  | cons a t ih =>
    intro n hp hs1 hs2 hnd
    cases n with
    | nil => exact absurd hp.symm.nil_eq.symm (List.cons_ne_nil a t)
    | cons b u =>
      rcases List.sorted_cons.1 hs1 with ⟨ha1, hst⟩
      rcases List.sorted_cons.1 hs2 with ⟨hb1, hsu⟩
      rw [List.map_cons] at hnd
      rcases List.nodup_cons.1 hnd with ⟨hna, hndt⟩
      have hb : b ∈ a :: t := hp.symm.subset (List.mem_cons_self b u)
      have hab : a = b := by
        rcases List.mem_cons.1 hb with h | h
        · exact h.symm
        · have h1 : keyLe a b := ha1 b h
          have hamem : a ∈ b :: u := hp.subset (List.mem_cons_self a t)
          rcases List.mem_cons.1 hamem with h2 | h2
          · exact h2
          · have h3 : keyLe b a := hb1 a h2
            have hfst : a.1 = b.1 := le_antisymm h1 h3
            have hmem : a.1 ∈ t.map Prod.fst := by
              rw [hfst]
              exact List.mem_map_of_mem Prod.fst h
            exact absurd hmem hna
      subst hab
      rw [ih hp.cons_inv hst hsu hndt]

theorem sortPairs_congr_perm {m n : TopicIndex} (hp : m.Perm n)
    (hnd : tiKeysNodup m) : sortPairs m = sortPairs n :=
  sorted_keyLe_nodup_eq ((sortPairs_perm m).trans (hp.trans (sortPairs_perm n).symm))
    (sortPairs_sorted m) (sortPairs_sorted n) (sortPairs_keysNodup hnd)

theorem tiStep_keyPred {ti : TopicIndex} {q : Str → Prop} (ref topic : Str)
    (hq : q topic) (h : ∀ p ∈ ti, q p.1) : ∀ p ∈ tiStep ref ti topic, q p.1 := by
  intro p hp
  cases hl : lookupKey ti topic with
  | none =>
    rw [tiStep_newTopic ti topic ref hl] at hp
    rcases List.mem_append.1 hp with h1 | h1
    · exact h p h1
    · rw [List.mem_singleton.1 h1]
      exact hq
  | some refs =>
    by_cases hm : ref ∈ refs
    · rw [tiStep_mem ti topic ref hl hm] at hp
      exact h p hp
    · rw [tiStep_addRef ti topic ref hl hm] at hp
      rcases mem_setKey hp with h1 | h1
      · exact h p h1
      · rw [h1]
        exact hq

theorem foldl_tiStep_keyPred (ref : Str) {q : Str → Prop} :
    ∀ (topics : List Str) (ti : TopicIndex), (∀ t ∈ topics, q t) →
      (∀ p ∈ ti, q p.1) → ∀ p ∈ topics.foldl (tiStep ref) ti, q p.1 := by
  intro topics
  induction topics with
  | nil =>
    intro ti _ h
    exact h
  | cons topic rest ih =>
    intro ti hts h
    rw [List.foldl_cons]
    exact ih _ (fun t ht => hts t (List.mem_cons_of_mem _ ht))
      (tiStep_keyPred ref topic (hts topic (List.mem_cons_self topic rest)) h)

/-! ## Claim theorems: topic index -/

/-- Counterexample to the original C5: on the empty (trivially
well-formed) document, saving topics `"9"` and `"10"` leaves the rebuilt
`topic_index` keys enumerated as `["9", "10"]` — array-index hoisting
order, not the lexicographically sorted order `["10", "9"]` that
`.sort()` assigned them in. -/
theorem claim_C5_counterexample :
    tiKeysNodup (({} : KB).topic_index.getD []) ∧
    tiRefsOk (({} : KB).topic_index.getD []) ∧
    ((updateTopicIndex {} [(r"9").toList, (r"10").toList]
        ((r"@a").toList)).topic_index.getD []).map Prod.fst =
      [(r"9").toList, (r"10").toList] ∧
    ¬ tiKeysSorted ((updateTopicIndex {} [(r"9").toList, (r"10").toList]
        ((r"@a").toList)).topic_index.getD []) := by
  decide

/-- Claim C5 (corrected): after `updateTopicIndex`, for every well-formed
Index Document (topic keys unique, each reference list sorted and
duplicate free — the invariant every engine-produced document satisfies),
each topic's reference list is sorted with no duplicate references; and
the topic-index keys are in sorted order PROVIDED no topic key is an
integer-like (array-index) string.  For array-index keys the object's
enumeration hoists them to the front in numeric order, which is not the
lexicographic order the rebuild assigned (`claim_C5_counterexample`). -/
theorem claim_C5 (kb : KB) (topics : List Str) (authorRef : Str)
    (h1 : tiKeysNodup (kb.topic_index.getD []))
    (h2 : tiRefsOk (kb.topic_index.getD []))
    (h3 : ∀ t ∈ topics, isArrayIndex t = false)
    (h4 : ∀ p ∈ kb.topic_index.getD [], isArrayIndex p.1 = false) :
    tiKeysSorted ((updateTopicIndex kb topics authorRef).topic_index.getD []) ∧
    tiRefsOk ((updateTopicIndex kb topics authorRef).topic_index.getD []) := by
  have hW : ∀ p ∈ topics.foldl (tiStep authorRef) (kb.topic_index.getD []),
      isArrayIndex p.1 = false :=
    foldl_tiStep_keyPred authorRef topics _ h3 h4
  have h5 : ∀ p ∈ sortPairs (topics.foldl (tiStep authorRef) (kb.topic_index.getD [])),
      isArrayIndex p.1 = false :=
    fun p hp => hW p ((sortPairs_perm _).mem_iff.1 hp)
  unfold updateTopicIndex
  simp only [Option.getD_some]
  rw [objEnum_id_of_no_index hW, objEnum_id_of_no_index h5]
  exact ⟨sortPairs_keysSorted _,
    sortPairs_refsOk (foldl_tiStep_refsOk authorRef topics _ h2)⟩

/-- Witness for C5 on a concrete unsorted-keys document whose topic keys
are not integer-like. -/
theorem claim_C5_witness :
    ((tiKeysNodup (exTopicKB.topic_index.getD []) ∧
        tiRefsOk (exTopicKB.topic_index.getD [])) ∧
      (∀ t ∈ exTopics, isArrayIndex t = false) ∧
      (∀ p ∈ exTopicKB.topic_index.getD [], isArrayIndex p.1 = false)) ∧
    (tiKeysSorted ((updateTopicIndex exTopicKB exTopics exRef).topic_index.getD []) ∧
      tiRefsOk ((updateTopicIndex exTopicKB exTopics exRef).topic_index.getD [])) :=
  ⟨⟨⟨by decide, by decide⟩, by decide, by decide⟩,
    claim_C5 exTopicKB exTopics exRef (by decide) (by decide) (by decide) (by decide)⟩

/-- Claim C6: `updateTopicIndex` is idempotent — applying the same
`(topics, authorReference)` pair twice yields the same document as
applying it once (for every document whose topic keys are unique, which
is every document representable as a JS object). -/
theorem claim_C6 (kb : KB) (topics : List Str) (authorRef : Str)
    (h : tiKeysNodup (kb.topic_index.getD [])) :
    updateTopicIndex (updateTopicIndex kb topics authorRef) topics authorRef =
      updateTopicIndex kb topics authorRef := by
  have hnd1 : tiKeysNodup (topics.foldl (tiStep authorRef) (kb.topic_index.getD [])) :=
    foldl_tiStep_keysNodup authorRef topics _ h
  have hndE : tiKeysNodup (objEnum (topics.foldl (tiStep authorRef)
      (kb.topic_index.getD []))) := objEnum_keysNodup hnd1
  have hndS : tiKeysNodup (sortPairs (objEnum (topics.foldl (tiStep authorRef)
      (kb.topic_index.getD [])))) := sortPairs_keysNodup hndE
  have hndR : tiKeysNodup (objEnum (sortPairs (objEnum (topics.foldl (tiStep authorRef)
      (kb.topic_index.getD []))))) := objEnum_keysNodup hndS
  have hfix : ∀ t ∈ topics,
      ∃ refs, lookupKey (objEnum (sortPairs (objEnum (topics.foldl (tiStep authorRef)
        (kb.topic_index.getD []))))) t = some refs ∧ authorRef ∈ refs := by
    intro t ht
    obtain ⟨refs, hl, hm⟩ := foldl_tiStep_establishes authorRef topics _ t ht
    refine ⟨refs, ?_, hm⟩
    rw [lookup_objEnum t hndS, sortPairs_lookup t hndE, lookup_objEnum t hnd1]
    exact hl
  simp only [updateTopicIndex, Option.getD_some]
  rw [foldl_tiStep_id authorRef topics _ hfix, objEnum_idem,
    sortPairs_congr_perm (objEnum_perm _) hndR,
    sortPairs_sorted_eq (sortPairs_sorted _)]

/-- Witness for C6 on a concrete document and topic list. -/
theorem claim_C6_witness :
    tiKeysNodup (exTopicKB.topic_index.getD []) ∧
    updateTopicIndex (updateTopicIndex exTopicKB exTopics exRef) exTopics exRef =
      updateTopicIndex exTopicKB exTopics exRef :=
  ⟨by decide, claim_C6 exTopicKB exTopics exRef (by decide)⟩

/-- Claim C10: topic data grows monotonically.  `updateTopicIndex` keeps
every existing topic key and every author reference already recorded
under it (it only adds); and the union-merge in `addOrUpdateAuthor`
keeps every topic the existing author already had. -/
theorem claim_C10 (kb : KB) (topics : List Str) (authorRef : Str)
    (h : tiKeysNodup (kb.topic_index.getD [])) :
    (∀ t refs, lookupKey (kb.topic_index.getD []) t = some refs →
      ∃ refs2, lookupKey ((updateTopicIndex kb topics authorRef).topic_index.getD [])
          t = some refs2 ∧ ∀ x ∈ refs, x ∈ refs2) ∧
    (∀ (kb2 : KB) (platform : Str) (a ex : Author),
      findAuthor kb2 platform (getAuthorIdentifier platform a) = some ex →
      ∀ t ∈ ex.topics.getD [],
        t ∈ (addOrUpdateAuthor kb2 platform a).author.topics.getD []) := by
  constructor
  · intro t refs hl
    obtain ⟨refs2, h2, hsub⟩ := foldl_tiStep_mono authorRef topics _ t refs hl
    refine ⟨refs2, ?_, hsub⟩
    show lookupKey (objEnum (sortPairs (objEnum (topics.foldl (tiStep authorRef)
      (kb.topic_index.getD []))))) t = some refs2
    have hnd1 : tiKeysNodup (topics.foldl (tiStep authorRef) (kb.topic_index.getD [])) :=
      foldl_tiStep_keysNodup authorRef topics _ h
    rw [lookup_objEnum t (sortPairs_keysNodup (objEnum_keysNodup hnd1)),
      sortPairs_lookup t (objEnum_keysNodup hnd1), lookup_objEnum t hnd1]
    exact h2
  · intro kb2 platform a ex hfound t ht
    have hm := (addOrUpdateAuthor_found kb2 platform a ex hfound).2.1
    rw [hm]
    exact mergeTopics_preserves ex a t ht

/-! ## Handle-normalization lemmas -/

theorem toNat_ofNat_valid (n : Nat) (h2 : n < 55296) : (Char.ofNat n).toNat = n := by
  have hv : n.isValidChar := Or.inl h2
  simp [Char.ofNat, hv, Char.toNat, Char.ofNatAux, UInt32.toNat]

theorem toLowerChar_eq_at {c : Char} : toLowerChar c = '@' ↔ c = '@' := by
  constructor
  · intro h
    unfold toLowerChar at h
    split_ifs at h with hc
    · exfalso
      obtain ⟨h1, h2⟩ := hc
      rw [Char.le_def] at h1 h2
      have hb1 : 65 ≤ c.toNat := h1
      have hb2 : c.toNat ≤ 90 := h2
      have hn := congrArg Char.toNat h
      rw [toNat_ofNat_valid (c.toNat + 32) (by omega)] at hn
      have h64 : ('@').toNat = 64 := by decide
      omega
    · exact h
  · intro h
    subst h
    decide

theorem toLowerStr_stripLeadingAt (u : Str) :
    toLowerStr (stripLeadingAt u) = stripLeadingAt (toLowerStr u) := by
  cases u with
  | nil => rfl
  | cons c t =>
    by_cases hc : c = '@'
    · subst hc
      simp [stripLeadingAt, toLowerStr, show toLowerChar '@' = '@' from by decide]
    · have hc2 : toLowerChar c ≠ '@' := fun hh => hc (toLowerChar_eq_at.1 hh)
      simp [stripLeadingAt, toLowerStr, hc, hc2]

theorem toLowerStr_nil_iff {u : Str} : toLowerStr u = [] ↔ u = [] := by
  unfold toLowerStr
  exact List.map_eq_nil

/-! ## Claim theorems: handle normalization -/

/-- Claim C9 (counterexample): the strings `@@alice` and `@alice` differ
only by one leading `@`, yet normalize differently in both
implementations, because `.replace(/^@/, '')` strips exactly one `@`. -/
theorem claim_C9_counterexample :
    normalizeHandle ((r"@@alice").toList) ≠ normalizeHandle ((r"@alice").toList) ∧
    Dedup.normalizeHandle ((r"@@alice").toList) ≠ Dedup.normalizeHandle ((r"@alice").toList) := by
  decide

/-- Claim C9 (amended): for both implementations, handles that differ
only by letter case normalize identically; and prepending a single
leading `@` to a handle that does not itself start with `@` leaves the
normalized form unchanged.  (A handle already starting with `@` gains a
second `@` that is not stripped.) -/
theorem claim_C9 :
    (∀ u v : Str, toLowerStr u = toLowerStr v →
      normalizeHandle u = normalizeHandle v ∧
      Dedup.normalizeHandle u = Dedup.normalizeHandle v) ∧
    (∀ h : Str, h.head? ≠ some '@' →
      normalizeHandle ('@' :: h) = normalizeHandle h ∧
      Dedup.normalizeHandle ('@' :: h) = Dedup.normalizeHandle h) := by
  constructor
  · intro u v huv
    have hsw : normalizeHandle u = normalizeHandle v := by
      unfold normalizeHandle
      rw [toLowerStr_stripLeadingAt, toLowerStr_stripLeadingAt, huv]
    refine ⟨hsw, ?_⟩
    unfold Dedup.normalizeHandle
    by_cases hu : u = []
    · have hv : v = [] := by
        rw [← toLowerStr_nil_iff, ← huv, toLowerStr_nil_iff]
        exact hu
      rw [if_pos hu, if_pos hv]
    · have hv : ¬ v = [] := by
        rw [← toLowerStr_nil_iff, ← huv, toLowerStr_nil_iff]
        exact hu
      rw [if_neg hu, if_neg hv]
      exact hsw
  · intro h hh
    have hstrip : stripLeadingAt h = h := by
      cases h with
      | nil => rfl
      | cons c t =>
        have hc : c ≠ '@' := by
          intro hc
          exact hh (by rw [hc]; rfl)
        simp [stripLeadingAt, hc]
    have hsw : normalizeHandle ('@' :: h) = normalizeHandle h := by
      unfold normalizeHandle
      rw [show stripLeadingAt ('@' :: h) = h from by simp [stripLeadingAt], hstrip]
    refine ⟨hsw, ?_⟩
    unfold Dedup.normalizeHandle
    rw [if_neg (by simp)]
    by_cases h0 : h = []
    · subst h0
      rw [if_pos rfl]
      decide
    · rw [if_neg h0]
      exact hsw

/-- Witness for C9: case-insensitivity at `Alice`/`ALICE` and
`@`-stripping at `bob`. -/
theorem claim_C9_witness :
    (toLowerStr ((r"Alice").toList) = toLowerStr ((r"ALICE").toList) ∧
      normalizeHandle ((r"Alice").toList) = normalizeHandle ((r"ALICE").toList) ∧
      Dedup.normalizeHandle ((r"Alice").toList) = Dedup.normalizeHandle ((r"ALICE").toList)) ∧
    (((r"bob").toList : Str).head? ≠ some '@' ∧
      normalizeHandle ('@' :: (r"bob").toList) = normalizeHandle ((r"bob").toList) ∧
      Dedup.normalizeHandle ('@' :: (r"bob").toList) = Dedup.normalizeHandle ((r"bob").toList)) :=
  ⟨⟨by decide, (claim_C9.1 ((r"Alice").toList) ((r"ALICE").toList) (by decide)).1,
      (claim_C9.1 ((r"Alice").toList) ((r"ALICE").toList) (by decide)).2⟩,
    ⟨by decide, (claim_C9.2 ((r"bob").toList) (by decide)).1,
      (claim_C9.2 ((r"bob").toList) (by decide)).2⟩⟩

/-! ## Claim theorems: bookmark builder -/

/-- Claim C7: `saveBookmark` control flow.  If the bookmark-folder
creation reports failure, the whole operation throws, the Index Document
is untouched, and the secondary `saveToKB` update is never attempted; if
creation succeeds, a `saveToKB` throw is swallowed (the Index Document
simply stays as it was) and `saveBookmark` still returns a success result
carrying the committed slug. -/
theorem claim_C7 (contentData : Option Content) (parseDate : Str → Option Str) (today : Str)
    (bodyMarkdown : Str) (hasFullHtml : Bool) (create : CreateResult)
    (kbUpdate : Except Str KB) (kb : KB) :
    (create.success = false →
      (saveBookmark contentData parseDate today bodyMarkdown hasFullHtml create
        kbUpdate kb).2.2 = false ∧
      (saveBookmark contentData parseDate today bodyMarkdown hasFullHtml create
        kbUpdate kb).2.1 = kb ∧
      ∃ e, (saveBookmark contentData parseDate today bodyMarkdown hasFullHtml create
        kbUpdate kb).1 = Except.error e) ∧
    (create.success = true →
      (saveBookmark contentData parseDate today bodyMarkdown hasFullHtml create
        kbUpdate kb).2.2 = true ∧
      (∀ e, kbUpdate = Except.error e →
        (saveBookmark contentData parseDate today bodyMarkdown hasFullHtml create
          kbUpdate kb).2.1 = kb) ∧
      ∃ out, (saveBookmark contentData parseDate today bodyMarkdown hasFullHtml create
          kbUpdate kb).1 = Except.ok out ∧ out.success = true ∧
        out.slug = generateSlug
          (if (contentData.bind (fun c => c.title)).getD [] = [] then (r"Untitled").toList
           else (contentData.bind (fun c => c.title)).getD [])
          (match contentData with
           | some c => c.url
           | none => [])
          (if (contentData.bind (fun c => c.date_published)).getD [] ≠ [] then
            (contentData.bind (fun c => c.date_published)).getD []
           else (contentData.bind (fun c => c.date)).getD [])
          parseDate today) := by
  constructor
  · intro hs
    simp only [saveBookmark, hs]
    exact ⟨rfl, rfl, ⟨_, rfl⟩⟩
  · intro hs
    simp only [saveBookmark, hs]
    refine ⟨rfl, ?_, ?_⟩
    · intro e he
      simp [he]
    · exact ⟨_, rfl, rfl, rfl⟩

/-- Witness for C7: a successful folder creation followed by a failing
index update still returns success. -/
theorem claim_C7_witness :
    exCreateOk.success = true ∧
    ((saveBookmark (some exBookmarkContent) (fun _ => none) ((r"2026-10-11").toList)
        ((r"body").toList) true exCreateOk exKbFail exTopicKB).2.2 = true ∧
      (∀ e, exKbFail = Except.error e →
        (saveBookmark (some exBookmarkContent) (fun _ => none) ((r"2026-10-11").toList)
          ((r"body").toList) true exCreateOk exKbFail exTopicKB).2.1 = exTopicKB) ∧
      ∃ out, (saveBookmark (some exBookmarkContent) (fun _ => none) ((r"2026-10-11").toList)
          ((r"body").toList) true exCreateOk exKbFail exTopicKB).1 = Except.ok out ∧
        out.success = true ∧
        out.slug = generateSlug
          (if ((some exBookmarkContent).bind (fun c => c.title)).getD [] = [] then
            (r"Untitled").toList
           else ((some exBookmarkContent).bind (fun c => c.title)).getD [])
          (match some exBookmarkContent with
           | some c => c.url
           | none => [])
          (if ((some exBookmarkContent).bind (fun c => c.date_published)).getD [] ≠ [] then
            ((some exBookmarkContent).bind (fun c => c.date_published)).getD []
           else ((some exBookmarkContent).bind (fun c => c.date)).getD [])
          (fun _ => none) ((r"2026-10-11").toList)) :=
  ⟨rfl,
    (claim_C7 (some exBookmarkContent) (fun _ => none) ((r"2026-10-11").toList)
      ((r"body").toList) true exCreateOk exKbFail exTopicKB).2 rfl⟩

/-- Claim C8: `generateSlug` produces `date_slug` with the date prefix
being the parseable published date (else the save date), the slug text
derived from the title with URL-path and placeholder fallbacks, and a
total length of at most 100 characters (dates being 10 characters, the
slug text being truncated to 80). -/
theorem claim_C8 (title url datePublished : Str) (parseDate : Str → Option Str) (today : Str)
    (htoday : today.length = 10)
    (hparse : ∀ s d, parseDate s = some d → d.length = 10) :
    ∃ dateStr slugText,
      generateSlug title url datePublished parseDate today =
        dateStr ++ '_' :: (trimHyphens (collapseNonAlnum (toLowerStr slugText))).take 80 ∧
      dateStr.length = 10 ∧
      (generateSlug title url datePublished parseDate today).length ≤ 100 ∧
      (∀ d, parseDate datePublished = some d → datePublished ≠ [] → dateStr = d) ∧
      ((datePublished = [] ∨ parseDate datePublished = none) → dateStr = today) ∧
      (title ≠ [] → slugText = title) ∧
      (title = [] →
        (∀ u, parseUrl url = some u →
          slugText = u.path.map (fun c => if c = '/' then ' ' else c)) ∧
        (parseUrl url = none → slugText = (r"untitled").toList)) := by
  have hd : (if datePublished ≠ [] then (parseDate datePublished).getD today
      else today).length = 10 := by
    by_cases hdp : datePublished = []
    · simp [hdp, htoday]
    · simp only [if_pos hdp]
      cases hp : parseDate datePublished with
      | none => simp [htoday]
      | some d => simpa using hparse _ _ hp
  refine ⟨if datePublished ≠ [] then (parseDate datePublished).getD today else today,
    if title ≠ [] then title
    else match parseUrl url with
      | some u => u.path.map (fun c => if c = '/' then ' ' else c)
      | none => (r"untitled").toList,
    rfl, hd, ?_, ?_, ?_, ?_, ?_⟩
  · have h1 : generateSlug title url datePublished parseDate today =
        (if datePublished ≠ [] then (parseDate datePublished).getD today else today) ++
        '_' :: (trimHyphens (collapseNonAlnum (toLowerStr
          (if title ≠ [] then title
           else match parseUrl url with
            | some u => u.path.map (fun c => if c = '/' then ' ' else c)
            | none => (r"untitled").toList)))).take 80 := rfl
    have h2 : ((trimHyphens (collapseNonAlnum (toLowerStr
        (if title ≠ [] then title
         else match parseUrl url with
          | some u => u.path.map (fun c => if c = '/' then ' ' else c)
          | none => (r"untitled").toList)))).take 80).length ≤ 80 := by
      rw [List.length_take]
      exact min_le_left _ _
    rw [h1, List.length_append, List.length_cons]
    omega
  · intro d hp hne
    simp [hne, hp]
  · rintro (h | h)
    · simp [h]
    · by_cases hdp : datePublished = []
      · simp [hdp]
      · simp [hdp, h]
  · intro ht
    simp [ht]
  · intro ht
    constructor
    · intro u hu
      simp [ht, hu]
    · intro hu
      simp [ht, hu]

/-- Witness for C8: a parseable publish date and a punctuated title. -/
theorem claim_C8_witness :
    (((r"2026-10-11").toList : Str).length = 10 ∧
      (∀ s d, (fun (_ : Str) => some ((r"2024-01-05").toList)) s = some d → d.length = 10)) ∧
    (∃ dateStr slugText,
      generateSlug ((r"Hello, World! A Title").toList) ((r"https://a.com/p").toList)
          ((r"Jan 5 2024").toList) (fun _ => some ((r"2024-01-05").toList))
          ((r"2026-10-11").toList) =
        dateStr ++ '_' :: (trimHyphens (collapseNonAlnum (toLowerStr slugText))).take 80 ∧
      dateStr.length = 10 ∧
      (generateSlug ((r"Hello, World! A Title").toList) ((r"https://a.com/p").toList)
          ((r"Jan 5 2024").toList) (fun _ => some ((r"2024-01-05").toList))
          ((r"2026-10-11").toList)).length ≤ 100 ∧
      (∀ d, (fun (_ : Str) => some ((r"2024-01-05").toList)) ((r"Jan 5 2024").toList) =
          some d → ((r"Jan 5 2024").toList : Str) ≠ [] → dateStr = d) ∧
      ((((r"Jan 5 2024").toList : Str) = [] ∨
          (fun (_ : Str) => some ((r"2024-01-05").toList)) ((r"Jan 5 2024").toList) = none) →
        dateStr = (r"2026-10-11").toList) ∧
      (((r"Hello, World! A Title").toList : Str) ≠ [] →
        slugText = (r"Hello, World! A Title").toList) ∧
      (((r"Hello, World! A Title").toList : Str) = [] →
        (∀ u, parseUrl ((r"https://a.com/p").toList) = some u →
          slugText = u.path.map (fun c => if c = '/' then ' ' else c)) ∧
        (parseUrl ((r"https://a.com/p").toList) = none →
          slugText = (r"untitled").toList))) :=
  ⟨⟨rfl, fun _ d h => by injection h with h2; rw [← h2]; rfl⟩,
    claim_C8 ((r"Hello, World! A Title").toList) ((r"https://a.com/p").toList)
      ((r"Jan 5 2024").toList) (fun _ => some ((r"2024-01-05").toList))
      ((r"2026-10-11").toList) rfl
      (fun _ d h => by injection h with h2; rw [← h2]; rfl)⟩

/-- Witness for C10 at a concrete document, topic and author. -/
theorem claim_C10_witness :
    tiKeysNodup (exTopicKB.topic_index.getD []) ∧
    (∃ refs2, lookupKey ((updateTopicIndex exTopicKB exTopics exRef).topic_index.getD [])
        ((r"ml").toList) = some refs2 ∧ ∀ x ∈ [(r"@a").toList, (r"@b").toList], x ∈ refs2) ∧
    (∀ t ∈ exLinkedinStored.topics.getD [],
      t ∈ (addOrUpdateAuthor exLinkedinKB strLinkedin exLinkedinIncoming).author.topics.getD []) :=
  ⟨by decide,
    (claim_C10 exTopicKB exTopics exRef (by decide)).1 ((r"ml").toList)
      [(r"@a").toList, (r"@b").toList] (by decide),
    (claim_C10 exTopicKB exTopics exRef (by decide)).2 exLinkedinKB strLinkedin
      exLinkedinIncoming exLinkedinStored (by decide)⟩

/-! ## String-scan lemmas for URL normalization -/

theorem dts_append_slash (s : Str) :
    dropTrailingSlashes (s ++ ['/']) = dropTrailingSlashes s := by
  unfold dropTrailingSlashes
  rw [List.reverse_append]
  simp [List.dropWhile]

theorem dts_eq_nil_iff {s : Str} :
    dropTrailingSlashes s = [] ↔ ∀ c ∈ s, c = '/' := by
  unfold dropTrailingSlashes
  rw [List.reverse_eq_nil_iff, List.dropWhile_eq_nil_iff]
  constructor
  · intro h c hc
    simpa using h c (by simpa using hc)
  · intro h c hc
    simpa using h c (by simpa using hc)

theorem dts_append_of_ne_nil {b : Str} (a : Str) (h : dropTrailingSlashes b ≠ []) :
    dropTrailingSlashes (a ++ b) = a ++ dropTrailingSlashes b := by
  unfold dropTrailingSlashes at h ⊢
  rw [List.reverse_append, List.dropWhile_append]
  have hne : ¬ (List.dropWhile (fun c => c = '/') b.reverse).isEmpty = true := by
    intro hh
    rw [List.isEmpty_iff] at hh
    rw [hh] at h
    exact h rfl
  rw [if_neg hne, List.reverse_append, List.reverse_reverse]

/-- `dropTrailingSlashes s` is an initial segment of `s`. -/
theorem dts_is_initial (s : Str) :
    ∃ r, s = dropTrailingSlashes s ++ r := by
  refine ⟨(s.reverse.takeWhile (fun c => c = '/')).reverse, ?_⟩
  unfold dropTrailingSlashes
  conv_lhs =>
    rw [← List.reverse_reverse s,
      ← List.takeWhile_append_dropWhile (p := fun c => c = '/') (l := s.reverse)]
  rw [List.reverse_append]

theorem noDoubleSlash_tail {c : Char} {m : Str}
    (h : noDoubleSlash (c :: m) = true) : noDoubleSlash m = true := by
  cases m with
  | nil => rfl
  | cons d t =>
    unfold noDoubleSlash at h
    rw [Bool.and_eq_true] at h
    exact h.2

theorem noDoubleSlash_head {m : Str} (h : noDoubleSlash ('/' :: m) = true) :
    m.head? ≠ some '/' := by
  cases m with
  | nil => simp
  | cons d t =>
    unfold noDoubleSlash at h
    rw [Bool.and_eq_true] at h
    simp only [List.head?_cons, ne_eq, Option.some.injEq]
    intro hd
    subst hd
    simp at h

theorem noDoubleSlash_append_left {b : Str} :
    ∀ {a : Str}, noDoubleSlash (a ++ b) = true → noDoubleSlash a = true
  | [], _ => rfl
  | [_], _ => rfl
  | x :: y :: t, h => by
    have h2 : noDoubleSlash (x :: y :: (t ++ b)) = true := by simpa using h
    unfold noDoubleSlash at h2 ⊢
    rw [Bool.and_eq_true] at h2
    rw [h2.1, Bool.true_and]
    exact noDoubleSlash_append_left (a := y :: t) (by simpa using h2.2)

theorem isPrefixB_self_append (l t : Str) : isPrefixB l (l ++ t) = true := by
  induction l with
  | nil => rfl
  | cons c l2 ih => simpa [isPrefixB] using ih

theorem occursB_append_no_head {p0 : Char} {p' a : Str} (b : Str)
    (h : ∀ c ∈ a, c ≠ p0) :
    occursB (p0 :: p') (a ++ b) = occursB (p0 :: p') b := by
  induction a with
  | nil => rfl
  | cons c a2 ih =>
    have hc : p0 ≠ c := Ne.symm (h c (List.mem_cons_self _ _))
    simp only [List.cons_append, occursB, isPrefixB, hc, if_false, Bool.false_or]
    exact ih (fun c2 hc2 => h c2 (List.mem_cons_of_mem _ hc2))

theorem occursB_no_doubleslash {p' : Str} :
    ∀ {m : Str}, noDoubleSlash m = true → occursB ('/' :: '/' :: p') m = false
  | [], _ => rfl
  | c :: t, h => by
    have ht := noDoubleSlash_tail h
    simp only [occursB, occursB_no_doubleslash ht, Bool.or_false]
    by_cases hc : c = '/'
    · subst hc
      have hh := noDoubleSlash_head h
      cases t with
      | nil => rfl
      | cons d t2 =>
        have hd : '/' ≠ d := fun hdd => hh (by rw [← hdd]; rfl)
        simp [isPrefixB, hd]
    · have hc2 : ('/' : Char) ≠ c := Ne.symm hc
      simp [isPrefixB, hc2]

theorem replaceFirstGo_of_occursB_false {pat rep : Str} :
    ∀ {s : Str}, occursB pat s = false → replaceFirstGo pat rep s = s
  | [], _ => rfl
  | c :: t, h => by
    simp only [occursB, Bool.or_eq_false_iff] at h
    simp only [replaceFirstGo, h.1, Bool.false_eq_true, if_false]
    rw [replaceFirstGo_of_occursB_false h.2]

theorem replaceFirstGo_append_no_head {p0 : Char} {p' rep a : Str} (b : Str)
    (h : ∀ c ∈ a, c ≠ p0) :
    replaceFirstGo (p0 :: p') rep (a ++ b) = a ++ replaceFirstGo (p0 :: p') rep b := by
  induction a with
  | nil => rfl
  | cons c a2 ih =>
    have hc : p0 ≠ c := Ne.symm (h c (List.mem_cons_self _ _))
    simp only [List.cons_append, replaceFirstGo, isPrefixB, hc, if_false,
      Bool.false_eq_true, List.cons.injEq, true_and]
    exact ih (fun c2 hc2 => h c2 (List.mem_cons_of_mem _ hc2))

theorem replaceFirstGo_at_match {p0 : Char} (p' rep t : Str) :
    replaceFirstGo (p0 :: p') rep ((p0 :: p') ++ t) = rep ++ t := by
  rw [List.cons_append]
  have hpre : isPrefixB (p0 :: p') (p0 :: (p' ++ t)) = true := by
    have hh := isPrefixB_self_append (p0 :: p') t
    rwa [List.cons_append] at hh
  simp only [replaceFirstGo, hpre, if_true]
  congr 1
  have hd := List.drop_left (p0 :: p') t
  rwa [List.cons_append] at hd

theorem replaceFirstAnyGo_append_all_slash {pats : List Str} {rep a : Str} (b : Str)
    (hpats : ∀ p ∈ pats, p.head? = some '/')
    (h : ∀ c ∈ a, c ≠ '/') :
    replaceFirstAnyGo pats rep (a ++ b) = a ++ replaceFirstAnyGo pats rep b := by
  induction a with
  | nil => rfl
  | cons c a2 ih =>
    have hfind : pats.find? (fun p => isPrefixB p (c :: (a2 ++ b))) = none := by
      rw [List.find?_eq_none]
      intro p hp
      cases p with
      | nil =>
        have hcontra := hpats [] hp
        simp at hcontra
      | cons q0 q' =>
        have hq : q0 = '/' := by simpa using hpats (q0 :: q') hp
        subst hq
        have hc : ('/' : Char) ≠ c := Ne.symm (h c (List.mem_cons_self _ _))
        simp [isPrefixB, hc]
    simp only [List.cons_append, replaceFirstAnyGo, List.append_eq, hfind, List.cons.injEq,
      true_and]
    exact ih (fun c2 hc2 => h c2 (List.mem_cons_of_mem _ hc2))

theorem isPrefixB_through_slash {ra : Str} :
    ∀ (q rb : Str), '/' ∉ q →
      isPrefixB q (rb ++ '/' :: ra) = isPrefixB q rb := by
  intro q
  induction q with
  | nil => intro rb _; rfl
  | cons c q' ih =>
    intro rb hq
    cases rb with
    | nil =>
      have hc : c ≠ '/' := fun hh => hq (hh ▸ List.mem_cons_self _ _)
      simp [isPrefixB, hc]
    | cons d rb' =>
      simp only [List.cons_append, isPrefixB, List.append_eq]
      rw [ih rb' (fun hh => hq (List.mem_cons_of_mem _ hh))]

theorem endsWithB_through_slash (a b pat : Str) (h : '/' ∉ pat) :
    endsWithB (a ++ '/' :: b) pat = endsWithB b pat := by
  unfold endsWithB
  rw [List.reverse_append]
  have hrev : ('/' :: b).reverse = b.reverse ++ ['/'] := by simp
  rw [hrev, List.append_assoc]
  have hmem : '/' ∉ pat.reverse := by simpa using h
  rw [show (['/'] : Str) ++ a.reverse = '/' :: a.reverse from rfl]
  exact isPrefixB_through_slash pat.reverse b.reverse hmem

theorem replaceFirst_ne_nil {pat : Str} (s rep : Str) (h : pat ≠ []) :
    replaceFirst s pat rep = replaceFirstGo pat rep s := by
  unfold replaceFirst
  rw [if_neg h]

theorem isPrefixB_extend {q : Str} (t : Str) :
    ∀ {s : Str}, isPrefixB q s = true → isPrefixB q (s ++ t) = true := by
  induction q with
  | nil => intro s _; rfl
  | cons c q' ih =>
    intro s h
    cases s with
    | nil => simp [isPrefixB] at h
    | cons d s' =>
      simp only [isPrefixB] at h ⊢
      by_cases hcd : c = d
      · rw [if_pos hcd] at h ⊢
        exact ih h
      · rw [if_neg hcd] at h
        exact absurd h (by simp)

theorem endsWithB_append_right (a : Str) {b pat : Str} (h : endsWithB b pat = true) :
    endsWithB (a ++ b) pat = true := by
  unfold endsWithB at h ⊢
  rw [List.reverse_append]
  exact isPrefixB_extend a.reverse h

/-! ## Normalization-pipeline lemmas -/

theorem swNormParts_congr (u v : JsUrl) (h1 : u.scheme = v.scheme) (h2 : u.host = v.host)
    (h3 : u.path = v.path) (h4 : u.fragment = v.fragment)
    (h5 : filterTracking swTrackingParams u.query = filterTracking swTrackingParams v.query) :
    swNormParts u = swNormParts v := by
  simp only [swNormParts, href]
  rw [h1, h2, h3, h4, h5]

theorem dedupNormParts_congr (u v : JsUrl) (h1 : u.scheme = v.scheme) (h2 : u.host = v.host)
    (h3 : u.path = v.path) (h4 : u.fragment = v.fragment)
    (h5 : filterTracking Dedup.dedupTrackingParams u.query =
      filterTracking Dedup.dedupTrackingParams v.query) :
    Dedup.dedupNormParts u = Dedup.dedupNormParts v := by
  simp only [Dedup.dedupNormParts, href]
  rw [h1, h2, h3, h4, h5]

theorem swNormParts_trailing (u : JsUrl)
    (hq : filterTracking swTrackingParams u.query = [])
    (hf : u.fragment = none) :
    swNormParts { u with path := u.path ++ ['/'] } = swNormParts u := by
  have hd : dropTrailingSlashes (href
      { scheme := u.scheme, host := u.host, path := u.path ++ ['/'],
        query := filterTracking swTrackingParams u.query, fragment := u.fragment }) =
      dropTrailingSlashes (href
      { scheme := u.scheme, host := u.host, path := u.path,
        query := filterTracking swTrackingParams u.query, fragment := u.fragment }) := by
    simp only [href, hq, hf, renderQuery, renderHash, List.append_nil]
    rw [show u.scheme ++ ':' :: '/' :: '/' :: (u.host ++ (u.path ++ ['/'])) =
      (u.scheme ++ ':' :: '/' :: '/' :: (u.host ++ u.path)) ++ ['/'] by
        simp [List.append_assoc]]
    rw [dts_append_slash]
  simp only [swNormParts]
  rw [hd]

theorem dedupNormParts_trailing (u : JsUrl)
    (hq : filterTracking Dedup.dedupTrackingParams u.query = [])
    (hf : u.fragment = none) :
    Dedup.dedupNormParts { u with path := u.path ++ ['/'] } = Dedup.dedupNormParts u := by
  have hd : dropTrailingSlashes (href
      { scheme := u.scheme, host := u.host, path := u.path ++ ['/'],
        query := filterTracking Dedup.dedupTrackingParams u.query,
        fragment := u.fragment }) =
      dropTrailingSlashes (href
      { scheme := u.scheme, host := u.host, path := u.path,
        query := filterTracking Dedup.dedupTrackingParams u.query,
        fragment := u.fragment }) := by
    simp only [href, hq, hf, renderQuery, renderHash, List.append_nil]
    rw [show u.scheme ++ ':' :: '/' :: '/' :: (u.host ++ (u.path ++ ['/'])) =
      (u.scheme ++ ':' :: '/' :: '/' :: (u.host ++ u.path)) ++ ['/'] by
        simp [List.append_assoc]]
    rw [dts_append_slash]
  simp only [Dedup.dedupNormParts]
  rw [hd]

theorem occursB_xcom_after_twitter (m : Str) :
    occursB xcomPat (twitterRep ++ m) = occursB xcomPat ('/' :: m) := rfl

theorem replaceFirstGo_xcom_self (m : Str) :
    replaceFirstGo xcomPat twitterRep (xcomPat ++ m) = twitterRep ++ m := rfl

theorem occursB_xcom_slash {m : Str} (hm : noDoubleSlash ('/' :: m) = true) :
    occursB xcomPat ('/' :: m) = false := by
  have hh := noDoubleSlash_head hm
  have hmm := noDoubleSlash_tail hm
  rw [show xcomPat = '/' :: '/' :: (('x' :: '.' :: 'c' :: 'o' :: 'm' :: '/' :: []) : Str)
    from rfl]
  simp only [occursB, occursB_no_doubleslash hmm, Bool.or_false]
  simp only [isPrefixB, if_pos rfl]
  cases m with
  | nil => rfl
  | cons d t =>
    have hd : '/' ≠ d := fun hdd => hh (by rw [← hdd]; rfl)
    simp [isPrefixB, hd]

theorem mem_scheme_colon {scheme : Str} (hs : ∀ c ∈ scheme, c ≠ '/') :
    ∀ c ∈ scheme ++ [':'], c ≠ '/' := by
  intro c hc
  rcases List.mem_append.1 hc with h1 | h2
  · exact hs c h1
  · simp only [List.mem_singleton] at h2
    subst h2
    decide

theorem noDoubleSlash_dts {T : Str} (h : noDoubleSlash ('/' :: T) = true) :
    noDoubleSlash ('/' :: dropTrailingSlashes T) = true := by
  obtain ⟨rest, hr⟩ := dts_is_initial T
  refine noDoubleSlash_append_left (b := rest) ?_
  rw [List.cons_append, ← hr]
  exact h

theorem swNormParts_xcom (scheme pathTail : Str) (query : List (Str × Str))
    (frag : Option Str)
    (hs : ∀ c ∈ scheme, c ≠ '/')
    (hT1 : ∃ c ∈ swTail pathTail query frag, c ≠ '/')
    (hT2 : noDoubleSlash ('/' :: swTail pathTail query frag) = true) :
    swNormParts
      { scheme := scheme, host := (r"x.com").toList, path := '/' :: pathTail,
        query := query, fragment := frag } =
    swNormParts
      { scheme := scheme, host := (r"twitter.com").toList, path := '/' :: pathTail,
        query := query, fragment := frag } := by
  have hTne : dropTrailingSlashes (swTail pathTail query frag) ≠ [] := by
    rw [Ne, dts_eq_nil_iff]
    push_neg
    obtain ⟨c, hc1, hc2⟩ := hT1
    exact ⟨c, hc1, hc2⟩
  have hT2d : noDoubleSlash ('/' :: dropTrailingSlashes (swTail pathTail query frag)) = true :=
    noDoubleSlash_dts hT2
  have hhu : href
      { scheme := scheme, host := (r"x.com").toList, path := '/' :: pathTail,
        query := filterTracking swTrackingParams query, fragment := frag } =
      ((scheme ++ [':']) ++ xcomPat) ++ swTail pathTail query frag := by
    simp [href, swTail, show xcomPat = ['/', '/', 'x', '.', 'c', 'o', 'm', '/'] from rfl,
      show (r"x.com").toList = ['x', '.', 'c', 'o', 'm'] from rfl, List.append_assoc]
  have hhv : href
      { scheme := scheme, host := (r"twitter.com").toList, path := '/' :: pathTail,
        query := filterTracking swTrackingParams query, fragment := frag } =
      ((scheme ++ [':']) ++ twitterRep) ++ swTail pathTail query frag := by
    simp [href, swTail,
      show twitterRep = ['/', '/', 't', 'w', 'i', 't', 't', 'e', 'r', '.', 'c', 'o', 'm', '/']
        from rfl,
      show (r"twitter.com").toList = ['t', 'w', 'i', 't', 't', 'e', 'r', '.', 'c', 'o', 'm']
        from rfl, List.append_assoc]
  have hdu : dropTrailingSlashes (((scheme ++ [':']) ++ xcomPat) ++
      swTail pathTail query frag) =
      (scheme ++ [':']) ++ (xcomPat ++ dropTrailingSlashes (swTail pathTail query frag)) := by
    rw [dts_append_of_ne_nil _ hTne, List.append_assoc]
  have hdv : dropTrailingSlashes (((scheme ++ [':']) ++ twitterRep) ++
      swTail pathTail query frag) =
      (scheme ++ [':']) ++ (twitterRep ++ dropTrailingSlashes (swTail pathTail query frag)) := by
    rw [dts_append_of_ne_nil _ hTne, List.append_assoc]
  have hru : replaceFirst ((scheme ++ [':']) ++
        (xcomPat ++ dropTrailingSlashes (swTail pathTail query frag))) xcomPat twitterRep =
      (scheme ++ [':']) ++ (twitterRep ++ dropTrailingSlashes (swTail pathTail query frag)) := by
    rw [replaceFirst_ne_nil _ _ (by decide),
      show xcomPat = '/' :: (('/' :: 'x' :: '.' :: 'c' :: 'o' :: 'm' :: '/' :: []) : Str)
        from rfl,
      replaceFirstGo_append_no_head _ (mem_scheme_colon hs)]
    rw [show ('/' :: (('/' :: 'x' :: '.' :: 'c' :: 'o' :: 'm' :: '/' :: []) : Str)) = xcomPat
      from rfl]
    rw [replaceFirstGo_xcom_self]
  have hrv : replaceFirst ((scheme ++ [':']) ++
        (twitterRep ++ dropTrailingSlashes (swTail pathTail query frag))) xcomPat twitterRep =
      (scheme ++ [':']) ++ (twitterRep ++ dropTrailingSlashes (swTail pathTail query frag)) := by
    rw [replaceFirst_ne_nil _ _ (by decide)]
    refine replaceFirstGo_of_occursB_false ?_
    rw [show xcomPat = '/' :: (('/' :: 'x' :: '.' :: 'c' :: 'o' :: 'm' :: '/' :: []) : Str)
      from rfl]
    rw [occursB_append_no_head _ (mem_scheme_colon hs)]
    rw [show ('/' :: (('/' :: 'x' :: '.' :: 'c' :: 'o' :: 'm' :: '/' :: []) : Str)) = xcomPat
      from rfl]
    rw [occursB_xcom_after_twitter, occursB_xcom_slash hT2d]
  simp only [swNormParts]
  rw [hhu, hhv, hdu, hdv, hru, hrv]

theorem rfa_xTwitter_xcom (m : Str) :
    replaceFirstAnyGo Dedup.xTwitterPats Dedup.xcomRep (xcomPat ++ m) = xcomPat ++ m := rfl

theorem rfa_xTwitter_twitter (m : Str) :
    replaceFirstAnyGo Dedup.xTwitterPats Dedup.xcomRep (twitterRep ++ m) = xcomPat ++ m := rfl

theorem xTwitterPats_heads : ∀ p ∈ Dedup.xTwitterPats, p.head? = some '/' := by decide

theorem linkedinPats_heads : ∀ p ∈ Dedup.linkedinPats, p.head? = some '/' := by decide

theorem dedupNormParts_xcom_bare (scheme : Str) (query : List (Str × Str))
    (hs : ∀ c ∈ scheme, c ≠ '/')
    (hq : filterTracking Dedup.dedupTrackingParams query = []) :
    Dedup.dedupNormParts
      { scheme := scheme, host := (r"x.com").toList, path := ['/'], query := query,
        fragment := none } =
    Dedup.dedupNormParts
      { scheme := scheme, host := (r"twitter.com").toList, path := ['/'], query := query,
        fragment := none } := by
  have hu : Dedup.dedupNormParts
      { scheme := scheme, host := (r"x.com").toList, path := ['/'], query := query,
        fragment := none } =
      toLowerStr (replaceFirstAny ((scheme ++ [':']) ++ xcomPat) Dedup.linkedinPats
        Dedup.linkedinRep) := by
    simp only [Dedup.dedupNormParts, Dedup.hashOf]
    have hh : href
        { scheme := scheme, host := (r"x.com").toList, path := ['/'],
          query := filterTracking Dedup.dedupTrackingParams query, fragment := none } =
        ((scheme ++ [':']) ++ ((r"//x.com").toList)) ++ ['/'] := by
      simp [href, hq, renderQuery, renderHash,
        show (r"x.com").toList = ['x', '.', 'c', 'o', 'm'] from rfl,
        show (r"//x.com").toList = ['/', '/', 'x', '.', 'c', 'o', 'm'] from rfl,
        List.append_assoc]
    rw [hh, dts_append_slash, dts_append_of_ne_nil _ (by decide),
      show dropTrailingSlashes ((r"//x.com").toList) = (r"//x.com").toList from by decide]
    rw [if_pos (endsWithB_append_right (scheme ++ [':']) (by decide))]
    rw [show ((scheme ++ [':']) ++ ((r"//x.com").toList)) ++ ['/'] =
      (scheme ++ [':']) ++ xcomPat by
        rw [List.append_assoc]
        rfl]
    rw [show replaceFirstAny ((scheme ++ [':']) ++ xcomPat) Dedup.xTwitterPats Dedup.xcomRep =
      (scheme ++ [':']) ++ xcomPat by
        unfold replaceFirstAny
        rw [replaceFirstAnyGo_append_all_slash _ xTwitterPats_heads (mem_scheme_colon hs)]
        rw [show replaceFirstAnyGo Dedup.xTwitterPats Dedup.xcomRep xcomPat = xcomPat
          from by decide]]
    simp
  have hv : Dedup.dedupNormParts
      { scheme := scheme, host := (r"twitter.com").toList, path := ['/'], query := query,
        fragment := none } =
      toLowerStr (replaceFirstAny ((scheme ++ [':']) ++ xcomPat) Dedup.linkedinPats
        Dedup.linkedinRep) := by
    simp only [Dedup.dedupNormParts, Dedup.hashOf]
    have hh : href
        { scheme := scheme, host := (r"twitter.com").toList, path := ['/'],
          query := filterTracking Dedup.dedupTrackingParams query, fragment := none } =
        ((scheme ++ [':']) ++ ((r"//twitter.com").toList)) ++ ['/'] := by
      simp [href, hq, renderQuery, renderHash,
        show (r"twitter.com").toList = ['t', 'w', 'i', 't', 't', 'e', 'r', '.', 'c', 'o', 'm']
          from rfl,
        show (r"//twitter.com").toList =
          ['/', '/', 't', 'w', 'i', 't', 't', 'e', 'r', '.', 'c', 'o', 'm'] from rfl,
        List.append_assoc]
    rw [hh, dts_append_slash, dts_append_of_ne_nil _ (by decide),
      show dropTrailingSlashes ((r"//twitter.com").toList) = (r"//twitter.com").toList
        from by decide]
    rw [if_pos (endsWithB_append_right (scheme ++ [':']) (by decide))]
    rw [show ((scheme ++ [':']) ++ ((r"//twitter.com").toList)) ++ ['/'] =
      (scheme ++ [':']) ++ twitterRep by
        rw [List.append_assoc]
        rfl]
    rw [show replaceFirstAny ((scheme ++ [':']) ++ twitterRep) Dedup.xTwitterPats
        Dedup.xcomRep = (scheme ++ [':']) ++ xcomPat by
        unfold replaceFirstAny
        rw [replaceFirstAnyGo_append_all_slash _ xTwitterPats_heads (mem_scheme_colon hs)]
        rw [show replaceFirstAnyGo Dedup.xTwitterPats Dedup.xcomRep twitterRep = xcomPat
          from by decide]]
    simp
  rw [hu, hv]

theorem dedupNormParts_xcom_path (scheme pathTail : Str) (query : List (Str × Str))
    (hs : ∀ c ∈ scheme, c ≠ '/')
    (hT1 : ∃ c ∈ dedupTail pathTail query, c ≠ '/')
    (hT2 : noDoubleSlash ('/' :: dedupTail pathTail query) = true)
    (hx : endsWithB (dropTrailingSlashes (dedupTail pathTail query))
      ((r"x.com").toList) = false)
    (htw : endsWithB (dropTrailingSlashes (dedupTail pathTail query))
      ((r"twitter.com").toList) = false) :
    Dedup.dedupNormParts
      { scheme := scheme, host := (r"x.com").toList, path := '/' :: pathTail,
        query := query, fragment := none } =
    Dedup.dedupNormParts
      { scheme := scheme, host := (r"twitter.com").toList, path := '/' :: pathTail,
        query := query, fragment := none } := by
  have hTne : dropTrailingSlashes (dedupTail pathTail query) ≠ [] := by
    rw [Ne, dts_eq_nil_iff]
    push_neg
    obtain ⟨c, hc1, hc2⟩ := hT1
    exact ⟨c, hc1, hc2⟩
  have hu : Dedup.dedupNormParts
      { scheme := scheme, host := (r"x.com").toList, path := '/' :: pathTail,
        query := query, fragment := none } =
      toLowerStr (replaceFirstAny ((scheme ++ [':']) ++
        (xcomPat ++ dropTrailingSlashes (dedupTail pathTail query)))
        Dedup.linkedinPats Dedup.linkedinRep) := by
    simp only [Dedup.dedupNormParts, Dedup.hashOf]
    have hh : href
        { scheme := scheme, host := (r"x.com").toList, path := '/' :: pathTail,
          query := filterTracking Dedup.dedupTrackingParams query, fragment := none } =
        ((scheme ++ [':']) ++ xcomPat) ++ dedupTail pathTail query := by
      simp [href, dedupTail, renderHash,
        show (r"x.com").toList = ['x', '.', 'c', 'o', 'm'] from rfl,
        show xcomPat = ['/', '/', 'x', '.', 'c', 'o', 'm', '/'] from rfl, List.append_assoc]
    rw [hh, dts_append_of_ne_nil _ hTne, List.append_assoc]
    have hend : endsWithB ((scheme ++ [':']) ++
        (xcomPat ++ dropTrailingSlashes (dedupTail pathTail query)))
        ((r"x.com").toList) = false := by
      rw [show (scheme ++ [':']) ++
          (xcomPat ++ dropTrailingSlashes (dedupTail pathTail query)) =
          ((scheme ++ [':']) ++ ((r"//x.com").toList)) ++
            '/' :: dropTrailingSlashes (dedupTail pathTail query) by
          simp [show xcomPat = ((r"//x.com").toList) ++ ['/'] from rfl, List.append_assoc]]
      rw [endsWithB_through_slash _ _ _ (by decide)]
      exact hx
    rw [hend]
    simp only [Bool.false_eq_true, if_false]
    rw [show replaceFirstAny ((scheme ++ [':']) ++
        (xcomPat ++ dropTrailingSlashes (dedupTail pathTail query)))
        Dedup.xTwitterPats Dedup.xcomRep =
        (scheme ++ [':']) ++ (xcomPat ++ dropTrailingSlashes (dedupTail pathTail query)) by
      unfold replaceFirstAny
      rw [replaceFirstAnyGo_append_all_slash _ xTwitterPats_heads (mem_scheme_colon hs),
        rfa_xTwitter_xcom]]
    simp
  have hv : Dedup.dedupNormParts
      { scheme := scheme, host := (r"twitter.com").toList, path := '/' :: pathTail,
        query := query, fragment := none } =
      toLowerStr (replaceFirstAny ((scheme ++ [':']) ++
        (xcomPat ++ dropTrailingSlashes (dedupTail pathTail query)))
        Dedup.linkedinPats Dedup.linkedinRep) := by
    simp only [Dedup.dedupNormParts, Dedup.hashOf]
    have hh : href
        { scheme := scheme, host := (r"twitter.com").toList, path := '/' :: pathTail,
          query := filterTracking Dedup.dedupTrackingParams query, fragment := none } =
        ((scheme ++ [':']) ++ twitterRep) ++ dedupTail pathTail query := by
      simp [href, dedupTail, renderHash,
        show (r"twitter.com").toList = ['t', 'w', 'i', 't', 't', 'e', 'r', '.', 'c', 'o', 'm']
          from rfl,
        show twitterRep = ['/', '/', 't', 'w', 'i', 't', 't', 'e', 'r', '.', 'c', 'o', 'm', '/']
          from rfl, List.append_assoc]
    rw [hh, dts_append_of_ne_nil _ hTne, List.append_assoc]
    have hend : endsWithB ((scheme ++ [':']) ++
        (twitterRep ++ dropTrailingSlashes (dedupTail pathTail query)))
        ((r"twitter.com").toList) = false := by
      rw [show (scheme ++ [':']) ++
          (twitterRep ++ dropTrailingSlashes (dedupTail pathTail query)) =
          ((scheme ++ [':']) ++ ((r"//twitter.com").toList)) ++
            '/' :: dropTrailingSlashes (dedupTail pathTail query) by
          simp [show twitterRep = ((r"//twitter.com").toList) ++ ['/'] from rfl,
            List.append_assoc]]
      rw [endsWithB_through_slash _ _ _ (by decide)]
      exact htw
    rw [hend]
    simp only [Bool.false_eq_true, if_false]
    rw [show replaceFirstAny ((scheme ++ [':']) ++
        (twitterRep ++ dropTrailingSlashes (dedupTail pathTail query)))
        Dedup.xTwitterPats Dedup.xcomRep =
        (scheme ++ [':']) ++ (xcomPat ++ dropTrailingSlashes (dedupTail pathTail query)) by
      unfold replaceFirstAny
      rw [replaceFirstAnyGo_append_all_slash _ xTwitterPats_heads (mem_scheme_colon hs),
        rfa_xTwitter_twitter]]
    simp
  rw [hu, hv]

/-! ## Claim theorems: URL normalization -/

/-- Claim C4 (counterexample): `https://x.com` and `https://twitter.com`
differ only in the x/twitter host form, yet the service worker's
`normalizeUrl` maps them to different strings: the bare domain leaves no
`//x.com/` substring after trailing-slash stripping, so the
canonicalizing replace never fires. -/
theorem claim_C4_counterexample :
    normalizeUrl ((r"https://x.com").toList) ≠
      normalizeUrl ((r"https://twitter.com").toList) := by
  decide

/-- Claim C4 (amended).  String-level `normalizeUrl` agrees with the
parsed-level normalizer whenever `new URL` succeeds (first two parts);
then, at the parsed level: both implementations are invariant under
tracking-parameter differences; both are invariant under a trailing
slash on the path when no query survives stripping and no fragment is
present; for the `x.com`/`twitter.com` host forms, the service-worker
implementation unifies the two only when non-slash material follows the
host (bare domains stay distinct, see the counterexample), while the
dedup implementation unifies them for bare root URLs as well as for URLs
with a regular tail (no `//` run, tail not ending in either hostname). -/
theorem claim_C4 :
    (∀ s u, parseUrl s = some u → normalizeUrl s = swNormParts u) ∧
    (∀ s u, s ≠ [] → parseUrl s = some u → Dedup.normalizeUrl s = Dedup.dedupNormParts u) ∧
    (∀ u v : JsUrl, u.scheme = v.scheme → u.host = v.host → u.path = v.path →
      u.fragment = v.fragment →
      filterTracking swTrackingParams u.query = filterTracking swTrackingParams v.query →
      swNormParts u = swNormParts v) ∧
    (∀ u v : JsUrl, u.scheme = v.scheme → u.host = v.host → u.path = v.path →
      u.fragment = v.fragment →
      filterTracking Dedup.dedupTrackingParams u.query =
        filterTracking Dedup.dedupTrackingParams v.query →
      Dedup.dedupNormParts u = Dedup.dedupNormParts v) ∧
    (∀ u : JsUrl, filterTracking swTrackingParams u.query = [] → u.fragment = none →
      swNormParts { u with path := u.path ++ ['/'] } = swNormParts u) ∧
    (∀ u : JsUrl, filterTracking Dedup.dedupTrackingParams u.query = [] →
      u.fragment = none →
      Dedup.dedupNormParts { u with path := u.path ++ ['/'] } = Dedup.dedupNormParts u) ∧
    (∀ (scheme pathTail : Str) (query : List (Str × Str)) (frag : Option Str),
      (∀ c ∈ scheme, c ≠ '/') →
      (∃ c ∈ swTail pathTail query frag, c ≠ '/') →
      noDoubleSlash ('/' :: swTail pathTail query frag) = true →
      swNormParts
        { scheme := scheme, host := (r"x.com").toList, path := '/' :: pathTail,
          query := query, fragment := frag } =
      swNormParts
        { scheme := scheme, host := (r"twitter.com").toList, path := '/' :: pathTail,
          query := query, fragment := frag }) ∧
    (∀ (scheme : Str) (query : List (Str × Str)),
      (∀ c ∈ scheme, c ≠ '/') →
      filterTracking Dedup.dedupTrackingParams query = [] →
      Dedup.dedupNormParts
        { scheme := scheme, host := (r"x.com").toList, path := ['/'], query := query,
          fragment := none } =
      Dedup.dedupNormParts
        { scheme := scheme, host := (r"twitter.com").toList, path := ['/'], query := query,
          fragment := none }) ∧
    (∀ (scheme pathTail : Str) (query : List (Str × Str)),
      (∀ c ∈ scheme, c ≠ '/') →
      (∃ c ∈ dedupTail pathTail query, c ≠ '/') →
      noDoubleSlash ('/' :: dedupTail pathTail query) = true →
      endsWithB (dropTrailingSlashes (dedupTail pathTail query)) ((r"x.com").toList) =
        false →
      endsWithB (dropTrailingSlashes (dedupTail pathTail query)) ((r"twitter.com").toList) =
        false →
      Dedup.dedupNormParts
        { scheme := scheme, host := (r"x.com").toList, path := '/' :: pathTail,
          query := query, fragment := none } =
      Dedup.dedupNormParts
        { scheme := scheme, host := (r"twitter.com").toList, path := '/' :: pathTail,
          query := query, fragment := none }) := by
  refine ⟨?_, ?_, swNormParts_congr, dedupNormParts_congr, swNormParts_trailing,
    dedupNormParts_trailing, swNormParts_xcom, dedupNormParts_xcom_bare,
    dedupNormParts_xcom_path⟩
  · intro s u h
    unfold normalizeUrl
    rw [h]
  · intro s u hne h
    unfold Dedup.normalizeUrl
    rw [if_neg hne, h]

/-- Witness for C4: each amended part at a concrete URL. -/
theorem claim_C4_witness :
    (normalizeUrl ((r"https://a.com/p?x=1").toList) = swNormParts exUrlT2) ∧
    (Dedup.normalizeUrl ((r"https://a.com/p?x=1").toList) = Dedup.dedupNormParts exUrlT2) ∧
    (swNormParts exUrlT1 = swNormParts exUrlT2) ∧
    (Dedup.dedupNormParts exUrlT1 = Dedup.dedupNormParts exUrlT2) ∧
    (swNormParts { exUrlSlash with path := exUrlSlash.path ++ ['/'] } =
      swNormParts exUrlSlash) ∧
    (Dedup.dedupNormParts { exUrlSlash with path := exUrlSlash.path ++ ['/'] } =
      Dedup.dedupNormParts exUrlSlash) ∧
    (swNormParts
        { scheme := (r"https").toList, host := (r"x.com").toList,
          path := '/' :: (r"p").toList, query := [], fragment := none } =
      swNormParts
        { scheme := (r"https").toList, host := (r"twitter.com").toList,
          path := '/' :: (r"p").toList, query := [], fragment := none }) ∧
    (Dedup.dedupNormParts
        { scheme := (r"https").toList, host := (r"x.com").toList, path := ['/'],
          query := [((r"utm_source").toList, (r"t").toList)], fragment := none } =
      Dedup.dedupNormParts
        { scheme := (r"https").toList, host := (r"twitter.com").toList, path := ['/'],
          query := [((r"utm_source").toList, (r"t").toList)], fragment := none }) ∧
    (Dedup.dedupNormParts
        { scheme := (r"https").toList, host := (r"x.com").toList,
          path := '/' :: (r"p").toList, query := [], fragment := none } =
      Dedup.dedupNormParts
        { scheme := (r"https").toList, host := (r"twitter.com").toList,
          path := '/' :: (r"p").toList, query := [], fragment := none }) := by
  obtain ⟨h0a, h0b, h1, h2, h3, h4, h5, h6, h7⟩ := claim_C4
  exact ⟨h0a _ exUrlT2 (by decide), h0b _ exUrlT2 (by decide) (by decide),
    h1 exUrlT1 exUrlT2 rfl rfl rfl rfl (by decide),
    h2 exUrlT1 exUrlT2 rfl rfl rfl rfl (by decide),
    h3 exUrlSlash (by decide) rfl,
    h4 exUrlSlash (by decide) rfl,
    h5 ((r"https").toList) ((r"p").toList) [] none (by decide) (by decide) (by decide),
    h6 ((r"https").toList) [((r"utm_source").toList, (r"t").toList)] (by decide) (by decide),
    h7 ((r"https").toList) ((r"p").toList) [] (by decide) (by decide) (by decide)
      (by decide) (by decide)⟩

end AgentMarKB
